import Mathlib

/-!
# Blinded-key keyblobs (`sw/device/lib/crypto/impl/keyblob.c`)

A shallow embedding of the keyblob routines of the OpenTitan crypto library and
proofs of their contracts.

Conventions of the embedding:

* 32-bit words (`uint32_t`, `size_t`, the bit pattern of an `int32_t`) are natural
  numbers; sums and products of `size_t` values are reduced modulo `2 ^ 32`.
* A run of a routine is a value of `Except Fault _`: `.ok r` when the routine returns
  `r`, `.error f` when it does not return (a hardened check aborts, or the run leaves
  defined C behaviour).
* `key->keyblob` is `none` for a NULL pointer and `some ws` for a pointer to storage
  holding the words `ws`; pointers the code never compares with NULL are modelled by
  the array they point to.
* Constants, macros and functions that come from headers outside this translation
  unit are collected in `Env` or modelled next to their first use.
-/

namespace Keyblob

/-- Ways in which a run ends without returning to the caller. -/
inductive Fault where
  /-- A `HARDENED_CHECK_*` failed or `HARDENED_TRAP` was reached. -/
  | trap
  /-- The right operand of `%` was zero. -/
  | div_by_zero
  /-- A word outside the addressed storage was accessed. -/
  | out_of_bounds
  /-- A NULL pointer was dereferenced. -/
  | null_deref
  /-- The iteration budget of a loop model was used up. -/
  | out_of_fuel
  deriving DecidableEq, Repr

/-- Equality of two runs is decidable, so closed runs can be evaluated. -/
instance instDecidableEqRun {ε α : Type} [DecidableEq ε] [DecidableEq α] :
    DecidableEq (Except ε α)
  | .ok a, .ok b => if h : a = b then isTrue (by rw [h]) else isFalse (by simp [h])
  | .error a, .error b => if h : a = b then isTrue (by rw [h]) else isFalse (by simp [h])
  | .ok _, .error _ => isFalse (by simp)
  | .error _, .ok _ => isFalse (by simp)

/-- The `status_t` of `status.h`: one `int32_t` field, kept as its 32-bit pattern. -/
structure status_t where
  value : Nat
  deriving DecidableEq, Repr

/-- The fields of `crypto_key_config_t` that `keyblob.c` reads. -/
structure crypto_key_config_t where
  key_mode : Nat
  key_length : Nat
  hw_backed : Nat
  deriving DecidableEq, Repr

/-- The `crypto_blinded_key_t` of the crypto API. -/
structure crypto_blinded_key_t where
  config : crypto_key_config_t
  keyblob_length : Nat
  keyblob : Option (List Nat)
  checksum : Nat
  deriving DecidableEq, Repr

/-- The `keymgr_diversification_t` of the key manager driver; `salt` is an array of
`kKeymgrSaltNumWords` words. -/
structure keymgr_diversification_t where
  version : Nat
  salt : List Nat
  deriving DecidableEq, Repr

/-- Everything `keyblob.c` takes from headers that are not part of the translation
unit: the hardened boolean sentinels, the key-type tags, the salt size of the key
manager, the two status values, and the checksum routine of `integrity.h`. -/
structure Env where
  kHardenedBoolTrue : Nat
  kHardenedBoolFalse : Nat
  kKeyTypeAes : Nat
  kKeyTypeHmac : Nat
  kKeyTypeKmac : Nat
  kKeyTypeKdf : Nat
  kKeyTypeEcc : Nat
  kKeyTypeRsa : Nat
  kKeymgrSaltNumWords : Nat
  OTCRYPTO_OK : status_t
  OTCRYPTO_BAD_ARGS : status_t
  integrity_blinded_checksum : crypto_blinded_key_t → Nat

/-- What the C language and `status.h` guarantee about the constants of an `Env`:
the two hardened booleans differ, the `case` labels of a `switch` are pairwise
distinct, `OTCRYPTO_OK` carries `kHardenedBoolTrue`, `OTCRYPTO_BAD_ARGS` is an error
status (sign bit set) other than `OTCRYPTO_OK`, and the salt has at least one word. -/
def Env.WF (c : Env) : Prop :=
  c.kHardenedBoolTrue ≠ c.kHardenedBoolFalse ∧
  [c.kKeyTypeAes, c.kKeyTypeHmac, c.kKeyTypeKmac, c.kKeyTypeKdf, c.kKeyTypeEcc,
    c.kKeyTypeRsa].Nodup ∧
  c.OTCRYPTO_OK.value = c.kHardenedBoolTrue ∧
  c.OTCRYPTO_BAD_ARGS ≠ c.OTCRYPTO_OK ∧
  c.OTCRYPTO_BAD_ARGS.value ||| 0x80000000 = c.OTCRYPTO_BAD_ARGS.value ∧
  1 ≤ c.kKeymgrSaltNumWords

instance (c : Env) : Decidable c.WF := by
  unfold Env.WF; infer_instance

/-- The optimisation barrier `launder32` of `hardened.h` returns its argument. -/
def launder32 (x : Nat) : Nat := x

/-- Modelled from the spec: `HARDENED_CHECK_EQ` of `hardened.h` is not among the
sources; a mismatch between a decision and its re-verification aborts execution. -/
def HARDENED_CHECK_EQ (a b : Nat) : Except Fault Unit :=
  if a = b then .ok () else .error .trap

/-- Modelled from the spec: `HARDENED_CHECK_NE` of `hardened.h`, see
`HARDENED_CHECK_EQ`. -/
def HARDENED_CHECK_NE (a b : Nat) : Except Fault Unit :=
  if a ≠ b then .ok () else .error .trap

/-- Modelled from the spec: `HARDENED_CHECK_LE` of `hardened.h`, see
`HARDENED_CHECK_EQ`. -/
def HARDENED_CHECK_LE (a b : Nat) : Except Fault Unit :=
  if a ≤ b then .ok () else .error .trap

/-- Modelled from the spec: `HARDENED_TRY` of the crypto `status.h` is not among the
sources; no operation proceeds past a failing check. The result is `some s` when the
enclosing function returns `s` at once (the status was not OK; the macro sets its
sign bit), and `none` when execution continues. -/
def HARDENED_TRY (c : Env) (expr_ : Except Fault status_t) :
    Except Fault (Option status_t) := do
  let status_ ← expr_
  if launder32 status_.value ≠ c.kHardenedBoolTrue then
    pure (some ⟨status_.value ||| 0x80000000⟩)
  else do
    HARDENED_CHECK_EQ status_.value c.kHardenedBoolTrue
    pure none

/-- Modelled from the spec: `ceil_div` of `sw/device/lib/base/math.h` is not among
the sources; the spec gives the number of words of a share as
`ceil(shareSizeBytes / 4)`. -/
def ceil_div (a b : Nat) : Nat := (a + b - 1) / b

/-- Reading `a[i]` of an array. -/
def read (a : List Nat) (i : Nat) : Except Fault Nat :=
  match a[i]? with
  | some v => .ok v
  | none => .error .out_of_bounds

/-- The assignment `a[i] = v` to an array. -/
def write (a : List Nat) (i v : Nat) : Except Fault (List Nat) :=
  if i < a.length then .ok (a.set i v) else .error .out_of_bounds

/-- Reading `p[i]` through a pointer that may be NULL. -/
def load (p : Option (List Nat)) (i : Nat) : Except Fault Nat :=
  match p with
  | none => .error .null_deref
  | some a => read a i

/-- The array behind a pointer that may be NULL. -/
def deref (p : Option (List Nat)) : Except Fault (List Nat) :=
  match p with
  | none => .error .null_deref
  | some a => .ok a

/-- The assignment `p[i] = v` through a pointer that may be NULL. -/
def store (p : Option (List Nat)) (i v : Nat) : Except Fault (Option (List Nat)) :=
  match p with
  | none => .error .null_deref
  | some a => do
    let a' ← write a i v
    pure (some a')

/-- Modelled from the spec: `hardened_memcpy` of `hardened_memory.h` is not among
the sources; it copies `word_len` words from `src + src_off` to `dest + dest_off`.
The result is the new content of the destination array. -/
def hardened_memcpy (dest : List Nat) (dest_off : Nat) (src : List Nat) (src_off : Nat)
    (word_len : Nat) : Except Fault (List Nat) :=
  if src_off + word_len ≤ src.length ∧ dest_off + word_len ≤ dest.length then
    .ok (dest.take dest_off ++ (src.drop src_off).take word_len
      ++ dest.drop (dest_off + word_len))
  else .error .out_of_bounds

/-- Modelled from the spec: `hardened_memeq` of `hardened_memory.h` is not among the
sources; it compares `word_len` words and answers with a hardened boolean. -/
def hardened_memeq (c : Env) (lhs : List Nat) (lhs_off : Nat) (rhs : List Nat)
    (rhs_off : Nat) (word_len : Nat) : Except Fault Nat :=
  if lhs_off + word_len ≤ lhs.length ∧ rhs_off + word_len ≤ rhs.length then
    if (lhs.drop lhs_off).take word_len = (rhs.drop rhs_off).take word_len then
      .ok c.kHardenedBoolTrue
    else .ok c.kHardenedBoolFalse
  else .error .out_of_bounds

/-- The enumerator `kHwBackedKeyblobWords`. -/
def kHwBackedKeyblobWords (c : Env) : Nat := c.kKeymgrSaltNumWords

/-- The enumerator `kHwBackedKeyblobBytes`. -/
def kHwBackedKeyblobBytes (c : Env) : Nat := kHwBackedKeyblobWords c * 4

/-- Source function `keyblob_share_num_bytes`: every arm of the `switch` returns, so the
`HARDENED_TRAP` after it is never reached. -/
def keyblob_share_num_bytes (c : Env) (config : crypto_key_config_t) :
    Except Fault Nat :=
  let key_type := config.key_mode >>> 16
  if launder32 key_type = c.kKeyTypeEcc then do
    HARDENED_CHECK_EQ (config.key_mode >>> 16) c.kKeyTypeEcc
    pure ((config.key_length + 64 / 8) % 2 ^ 32)
  else if launder32 key_type = c.kKeyTypeRsa then do
    HARDENED_CHECK_EQ (config.key_mode >>> 16) c.kKeyTypeRsa
    pure config.key_length
  else do
    HARDENED_CHECK_NE (config.key_mode >>> 16) c.kKeyTypeEcc
    HARDENED_CHECK_NE (config.key_mode >>> 16) c.kKeyTypeRsa
    pure config.key_length

/-- Source function `keyblob_share_num_words`. -/
def keyblob_share_num_words (c : Env) (config : crypto_key_config_t) :
    Except Fault Nat := do
  let len_bytes ← keyblob_share_num_bytes c config
  pure (ceil_div len_bytes 4)

/-- Source function `keyblob_num_words`. -/
def keyblob_num_words (c : Env) (config : crypto_key_config_t) : Except Fault Nat :=
  if launder32 config.hw_backed = c.kHardenedBoolTrue then do
    HARDENED_CHECK_EQ config.hw_backed c.kHardenedBoolTrue
    pure (kHwBackedKeyblobWords c)
  else do
    HARDENED_CHECK_NE config.hw_backed c.kHardenedBoolTrue
    let share_words ← keyblob_share_num_words c config
    pure ((2 * share_words) % 2 ^ 32)

/-- Source function `check_keyblob_length`. -/
def check_keyblob_length (c : Env) (key : crypto_blinded_key_t) :
    Except Fault status_t := do
  let num_words ← keyblob_num_words c key.config
  if launder32 key.keyblob_length = (num_words * 4) % 2 ^ 32 then do
    HARDENED_CHECK_EQ key.keyblob_length ((num_words * 4) % 2 ^ 32)
    HARDENED_CHECK_LE (key.keyblob_length / 4) num_words
    pure c.OTCRYPTO_OK
  else
    pure c.OTCRYPTO_BAD_ARGS

/-- Source function `keyblob_to_shares`. The out-parameters are reported as `some (o0, o1)` when
the call stored `key->keyblob + o0` in `*share0` and `key->keyblob + o1` in `*share1`
(offsets in words), and as `none` when it stored nothing. -/
def keyblob_to_shares (c : Env) (key : crypto_blinded_key_t) :
    Except Fault (status_t × Option (Nat × Nat)) := do
  match ← HARDENED_TRY c (check_keyblob_length c key) with
  | some err => pure (err, none)
  | none =>
    let key_words ← keyblob_share_num_words c key.config
    pure (c.OTCRYPTO_OK, some (0, key_words))

/-- Source function `keyblob_from_shares`: the result is the new content of `keyblob`. -/
def keyblob_from_shares (c : Env) (share0 share1 : List Nat)
    (config : crypto_key_config_t) (keyblob : List Nat) : Except Fault (List Nat) := do
  let share_words ← keyblob_share_num_words c config
  let keyblob ← hardened_memcpy keyblob 0 share0 0 share_words
  hardened_memcpy keyblob share_words share1 0 share_words

/-- Source function `keyblob_to_keymgr_diversification`: the result is the status and the new content
of `*diversification`. -/
def keyblob_to_keymgr_diversification (c : Env) (key : crypto_blinded_key_t)
    (diversification : keymgr_diversification_t) :
    Except Fault (status_t × keymgr_diversification_t) :=
  if launder32 key.config.hw_backed ≠ c.kHardenedBoolTrue ∨ key.keyblob = none then
    pure (c.OTCRYPTO_BAD_ARGS, diversification)
  else do
    HARDENED_CHECK_EQ key.config.hw_backed c.kHardenedBoolTrue
    if key.keyblob_length ≠ kHwBackedKeyblobBytes c then
      pure (c.OTCRYPTO_BAD_ARGS, diversification)
    else do
      let version ← load key.keyblob 0
      let diversification : keymgr_diversification_t :=
        { diversification with version := launder32 version }
      let salt ← hardened_memcpy diversification.salt 0 (← deref key.keyblob) 1
        (c.kKeymgrSaltNumWords - 1)
      let diversification : keymgr_diversification_t :=
        { diversification with salt := salt }
      let salt ← write diversification.salt (c.kKeymgrSaltNumWords - 1)
        (launder32 key.config.key_mode)
      let diversification : keymgr_diversification_t :=
        { diversification with salt := salt }
      HARDENED_CHECK_EQ diversification.version (← load key.keyblob 0)
      HARDENED_CHECK_EQ
        (← hardened_memeq c diversification.salt 0 (← deref key.keyblob) 1
          (c.kKeymgrSaltNumWords - 1))
        c.kHardenedBoolTrue
      HARDENED_CHECK_EQ (← read diversification.salt (c.kKeymgrSaltNumWords - 1))
        key.config.key_mode
      pure (c.OTCRYPTO_OK, diversification)

/-- Source function `keyblob_ensure_xor_masked`. -/
def keyblob_ensure_xor_masked (c : Env) (config : crypto_key_config_t) :
    Except Fault status_t :=
  if launder32 config.hw_backed ≠ c.kHardenedBoolFalse then
    pure c.OTCRYPTO_BAD_ARGS
  else do
    HARDENED_CHECK_EQ config.hw_backed c.kHardenedBoolFalse
    let key_type := launder32 config.key_mode >>> 16
    let result := launder32 (c.OTCRYPTO_OK.value ^^^ key_type)
    let matched : Except Fault (Option Nat) :=
      if launder32 key_type = c.kKeyTypeAes then do
        HARDENED_CHECK_EQ (config.key_mode >>> 16) c.kKeyTypeAes
        pure (some (result ^^^ launder32 c.kKeyTypeAes))
      else if launder32 key_type = c.kKeyTypeHmac then do
        HARDENED_CHECK_EQ (config.key_mode >>> 16) c.kKeyTypeHmac
        pure (some (result ^^^ launder32 c.kKeyTypeHmac))
      else if launder32 key_type = c.kKeyTypeKmac then do
        HARDENED_CHECK_EQ (config.key_mode >>> 16) c.kKeyTypeKmac
        pure (some (result ^^^ launder32 c.kKeyTypeKmac))
      else if launder32 key_type = c.kKeyTypeKdf then do
        HARDENED_CHECK_EQ (config.key_mode >>> 16) c.kKeyTypeKdf
        pure (some (result ^^^ launder32 c.kKeyTypeKdf))
      else if launder32 key_type = c.kKeyTypeEcc then
        pure none
      else if launder32 key_type = c.kKeyTypeRsa then
        pure none
      else
        pure none
    match ← matched with
    | none => pure c.OTCRYPTO_BAD_ARGS
    | some result => do
      HARDENED_CHECK_NE (config.key_mode >>> 16) c.kKeyTypeEcc
      HARDENED_CHECK_NE (config.key_mode >>> 16) c.kKeyTypeRsa
      pure ⟨result⟩

/-- The loop of `keyblob_from_key_and_mask`, started at index `i` with the local
array `share0`; the result is the final `i` and `share0`. The first argument bounds
the number of iterations. -/
def keyblob_from_key_and_mask_loop (key mask : List Nat) (key_words : Nat) :
    Nat → Nat → List Nat → Except Fault (Nat × List Nat)
  | 0, i, share0 =>
    if launder32 i < key_words then .error .out_of_fuel else .ok (i, share0)
  | fuel + 1, i, share0 =>
    if launder32 i < key_words then do
      let share0 ← write share0 i ((← read key i) ^^^ (← read mask i))
      keyblob_from_key_and_mask_loop key mask key_words fuel (i + 1) share0
    else .ok (i, share0)

/-- Source function `keyblob_from_key_and_mask`: the result is the status and the new content of the
output array `keyblob`. The variable-length local `share0` starts out as
`key_words` words. -/
def keyblob_from_key_and_mask (c : Env) (key mask : List Nat)
    (config : crypto_key_config_t) (keyblob : List Nat) :
    Except Fault (status_t × List Nat) := do
  match ← HARDENED_TRY c (keyblob_ensure_xor_masked c config) with
  | some err => pure (err, keyblob)
  | none =>
    let key_words ← keyblob_share_num_words c config
    let share0 := List.replicate key_words 0
    let (i, share0) ←
      keyblob_from_key_and_mask_loop key mask key_words key_words 0 share0
    HARDENED_CHECK_EQ i key_words
    let keyblob ← keyblob_from_shares c share0 mask config keyblob
    pure (c.OTCRYPTO_OK, keyblob)

/-- The loop of `keyblob_remask`, started at index `i` with `key->keyblob` equal to
`keyblob`; the result is the final `i` and `key->keyblob`. The first argument bounds
the number of iterations. -/
def keyblob_remask_loop (mask : List Nat) (key_share_words keyblob_words : Nat) :
    Nat → Nat → Option (List Nat) → Except Fault (Nat × Option (List Nat))
  | 0, i, keyblob =>
    if launder32 i < keyblob_words then .error .out_of_fuel else .ok (i, keyblob)
  | fuel + 1, i, keyblob =>
    if launder32 i < keyblob_words then
      if key_share_words = 0 then .error .div_by_zero
      else do
        let m ← read mask (i % key_share_words)
        let keyblob ← store keyblob i ((← load keyblob i) ^^^ m)
        keyblob_remask_loop mask key_share_words keyblob_words fuel (i + 1) keyblob
    else .ok (i, keyblob)

/-- Source function `keyblob_remask`: the result is the status and the new content of `*key`. -/
def keyblob_remask (c : Env) (key : crypto_blinded_key_t) (mask : List Nat) :
    Except Fault (status_t × crypto_blinded_key_t) := do
  match ← HARDENED_TRY c (keyblob_ensure_xor_masked c key.config) with
  | some err => pure (err, key)
  | none =>
    match ← HARDENED_TRY c (check_keyblob_length c key) with
    | some err => pure (err, key)
    | none =>
      let key_share_words ← keyblob_share_num_words c key.config
      let keyblob_words ← keyblob_num_words c key.config
      let (i, keyblob) ←
        keyblob_remask_loop mask key_share_words keyblob_words keyblob_words 0 key.keyblob
      let key : crypto_blinded_key_t := { key with keyblob := keyblob }
      HARDENED_CHECK_EQ i keyblob_words
      let key : crypto_blinded_key_t :=
        { key with checksum := c.integrity_blinded_checksum key }
      pure (c.OTCRYPTO_OK, key)

/-- The `len` words at word offset `off` of the storage behind `p`, when they exist. -/
def view (p : Option (List Nat)) (off len : Nat) : Option (List Nat) :=
  match p with
  | none => none
  | some a => if off + len ≤ a.length then some ((a.drop off).take len) else none

/-- An environment to run the model in: the hardened booleans and the key-type tags are
pairwise distinct 12-bit words, the salt has eight words, and the checksum folds the
configuration, the length and the blob into one word. -/
def demoEnv : Env where
  kHardenedBoolTrue := 0x739
  kHardenedBoolFalse := 0x1d4
  kKeyTypeAes := 0x8e9
  kKeyTypeHmac := 0xe3f
  kKeyTypeKmac := 0xb74
  kKeyTypeKdf := 0xb87
  kKeyTypeEcc := 0x15b
  kKeyTypeRsa := 0x7ee
  kKeymgrSaltNumWords := 8
  OTCRYPTO_OK := ⟨0x739⟩
  OTCRYPTO_BAD_ARGS := ⟨0x80000003⟩
  integrity_blinded_checksum := fun key =>
    (key.keyblob.getD []).foldl (fun acc w => (31 * acc + w) % 2 ^ 32)
      (key.config.key_mode ^^^ key.config.key_length ^^^ key.config.hw_backed
        ^^^ key.keyblob_length)

/-- The configuration of a 128-bit AES key held in two shares. -/
def aes128 : crypto_key_config_t :=
  { key_mode := 0x8e9 <<< 16 ||| 2, key_length := 16, hw_backed := 0x1d4 }

/-! ## Closed forms and sample data used in the statements -/

/-- Closed form of `keyblob_share_num_bytes`. -/
def shareBytes (c : Env) (config : crypto_key_config_t) : Nat :=
  if config.key_mode >>> 16 = c.kKeyTypeEcc then (config.key_length + 8) % 2 ^ 32
  else config.key_length

/-- Closed form of `keyblob_share_num_words`. -/
def shareWords (c : Env) (config : crypto_key_config_t) : Nat :=
  ceil_div (shareBytes c config) 4

/-- Closed form of `keyblob_num_words`. -/
def numWords (c : Env) (config : crypto_key_config_t) : Nat :=
  if config.hw_backed = c.kHardenedBoolTrue then c.kKeymgrSaltNumWords
  else (2 * shareWords c config) % 2 ^ 32

/-- The key-type tags of the symmetric key types. -/
def symmetricTags (c : Env) : List Nat :=
  [c.kKeyTypeAes, c.kKeyTypeHmac, c.kKeyTypeKmac, c.kKeyTypeKdf]

/-- Closed form of the blob after the loop of `keyblob_remask` has run from index `i`:
word `j` with `i ≤ j < keyblob_words` has been XOR-ed with `mask[j % key_share_words]`. -/
def remasked (mask : List Nat) (key_share_words keyblob_words i : Nat) (blob : List Nat) :
    List Nat :=
  blob.mapIdx fun j w =>
    if i ≤ j ∧ j < keyblob_words then w ^^^ mask.getD (j % key_share_words) 0 else w

/-- Closed form of the local `share0` after the loop of `keyblob_from_key_and_mask` has
run from index `i`. -/
def xorShare (key mask : List Nat) (key_words i : Nat) (share0 : List Nat) : List Nat :=
  share0.mapIdx fun j w =>
    if i ≤ j ∧ j < key_words then key.getD j 0 ^^^ mask.getD j 0 else w

/-- The 128-bit AES key of the scenarios, blinded as `[4,4,4,12] ++ [5,6,7,8]`. -/
def demoKey : crypto_blinded_key_t :=
  { config := aes128, keyblob_length := 32, keyblob := some [4, 4, 4, 12, 5, 6, 7, 8],
    checksum := 0 }

/-- The key `demoKey` after re-masking with `[1,1,1,1]`. -/
def demoKeyRemasked : crypto_blinded_key_t :=
  { config := aes128, keyblob_length := 32, keyblob := some [5, 5, 5, 13, 4, 7, 6, 9],
    checksum := demoEnv.integrity_blinded_checksum
      { demoKey with keyblob := some [5, 5, 5, 13, 4, 7, 6, 9] } }

/-- A run that ends without a fatal abort: it returns OK or BAD_ARGS, or it stops at an
access outside the storage the caller supplied. It does not stop at a hardened check, at
a division by zero, or for lack of iterations. -/
def no_abort {α : Type} (c : Env) (r : Except Fault (status_t × α)) : Prop :=
  match r with
  | .ok (st, _) => st = c.OTCRYPTO_OK ∨ st = c.OTCRYPTO_BAD_ARGS
  | .error e => e = .out_of_bounds ∨ e = .null_deref

/-- A hardware-backed key whose configuration names a 256-bit AES key: its blob is the
eight words of version and salt. -/
def hwKey : crypto_blinded_key_t :=
  { config := { key_mode := 0x8e9 <<< 16 ||| 2, key_length := 32, hw_backed := 0x739 },
    keyblob_length := 32, keyblob := some [10, 11, 12, 13, 14, 15, 16, 17], checksum := 0 }

/-- The configuration of a P-256 private key held in two shares. -/
def ecc256 : crypto_key_config_t :=
  { key_mode := 0x15b <<< 16 ||| 1, key_length := 32, hw_backed := 0x1d4 }

/-- An AES configuration whose `key_length` is `2 ^ 31` bytes: the byte length of its
blob does not fit in 32 bits. -/
def hugeAes : crypto_key_config_t :=
  { key_mode := 0x8e9 <<< 16 ||| 2, key_length := 2 ^ 31, hw_backed := 0x1d4 }

/-- An ECC configuration whose `key_length` is `2 ^ 32 - 8` bytes: adding the eight
redundant bytes does not fit in 32 bits. -/
def hugeEcc : crypto_key_config_t :=
  { key_mode := 0x15b <<< 16 ||| 1, key_length := 2 ^ 32 - 8, hw_backed := 0x1d4 }

/-- The key `demoKey` with a `hw_backed` word that is neither hardened boolean. -/
def glitchedKey : crypto_blinded_key_t :=
  { config := { aes128 with hw_backed := 0 }, keyblob_length := 32,
    keyblob := some [4, 4, 4, 12, 5, 6, 7, 8], checksum := 0 }

/-- An eligible key of length zero: no blob and no storage. -/
def emptyKey : crypto_blinded_key_t :=
  { config := { key_mode := 0xe3f <<< 16, key_length := 0, hw_backed := 0x1d4 },
    keyblob_length := 0, keyblob := none, checksum := 0 }

/-! ## Runs: basic facts -/

@[simp] theorem run_bind_ok {α β : Type} (a : α) (f : α → Except Fault β) :
    (Except.ok a >>= f) = f a := rfl

@[simp] theorem run_bind_error {α β : Type} (e : Fault) (f : α → Except Fault β) :
    ((Except.error e : Except Fault α) >>= f) = Except.error e := rfl

theorem run_bind_eq_ok {α β : Type} {x : Except Fault α} {f : α → Except Fault β} {b : β} :
    (x >>= f) = Except.ok b ↔ ∃ a, x = Except.ok a ∧ f a = Except.ok b := by
  cases x with
  | error e => simp
  | ok a => simp

@[simp] theorem run_pure {α : Type} (a : α) : (pure a : Except Fault α) = Except.ok a := rfl

@[simp] theorem launder32_eq (x : Nat) : launder32 x = x := rfl

@[simp] theorem HARDENED_CHECK_EQ_self (a : Nat) : HARDENED_CHECK_EQ a a = .ok () := by
  simp [HARDENED_CHECK_EQ]

theorem HARDENED_CHECK_NE_of_ne {a b : Nat} (h : a ≠ b) : HARDENED_CHECK_NE a b = .ok () := by
  simp [HARDENED_CHECK_NE, h]

theorem HARDENED_CHECK_LE_of_le {a b : Nat} (h : a ≤ b) : HARDENED_CHECK_LE a b = .ok () := by
  simp [HARDENED_CHECK_LE, h]

/-! ## Sizes -/

theorem keyblob_share_num_bytes_eq (c : Env) (config : crypto_key_config_t) :
    keyblob_share_num_bytes c config = .ok (shareBytes c config) := by
  unfold keyblob_share_num_bytes shareBytes
  by_cases h1 : config.key_mode >>> 16 = c.kKeyTypeEcc
  · simp [h1]
  · by_cases h2 : config.key_mode >>> 16 = c.kKeyTypeRsa
    · simp only [launder32_eq, if_neg h1, if_pos h2, run_pure]
      rw [h2, HARDENED_CHECK_EQ_self, run_bind_ok]
    · simp [h1, h2, HARDENED_CHECK_NE_of_ne]

theorem keyblob_share_num_words_eq (c : Env) (config : crypto_key_config_t) :
    keyblob_share_num_words c config = .ok (shareWords c config) := by
  simp [keyblob_share_num_words, keyblob_share_num_bytes_eq, shareWords]

theorem keyblob_num_words_eq (c : Env) (config : crypto_key_config_t) :
    keyblob_num_words c config = .ok (numWords c config) := by
  unfold keyblob_num_words numWords
  by_cases h : config.hw_backed = c.kHardenedBoolTrue
  · simp [h, kHwBackedKeyblobWords]
  · simp [h, HARDENED_CHECK_NE_of_ne, keyblob_share_num_words_eq]

theorem check_keyblob_length_eq (c : Env) (key : crypto_blinded_key_t) :
    check_keyblob_length c key =
      .ok (if key.keyblob_length = (numWords c key.config * 4) % 2 ^ 32 then c.OTCRYPTO_OK
        else c.OTCRYPTO_BAD_ARGS) := by
  unfold check_keyblob_length
  by_cases h : key.keyblob_length = (numWords c key.config * 4) % 2 ^ 32
  · have hle : key.keyblob_length / 4 ≤ numWords c key.config := by
      rw [h]; omega
    simp only [keyblob_num_words_eq, run_bind_ok, launder32_eq, if_pos h,
      HARDENED_CHECK_LE_of_le hle, run_pure]
    rw [← h, HARDENED_CHECK_EQ_self, run_bind_ok]
  · simp only [keyblob_num_words_eq, run_bind_ok, launder32_eq, if_neg h, run_pure]

/-! ## The masking policy -/

theorem keyblob_ensure_xor_masked_ok (c : Env) (hc : c.WF) (config : crypto_key_config_t)
    (hhw : config.hw_backed = c.kHardenedBoolFalse)
    (htag : config.key_mode >>> 16 ∈ symmetricTags c) :
    keyblob_ensure_xor_masked c config = .ok c.OTCRYPTO_OK := by
  obtain ⟨_, hnd, _, _, _, _⟩ := hc
  simp only [List.nodup_cons, List.mem_cons, List.mem_singleton, not_or, List.not_mem_nil,
    not_false_eq_true, List.nodup_nil, and_true] at hnd
  obtain ⟨⟨h12, h13, h14, h15, h16⟩, ⟨h23, h24, h25, h26⟩, ⟨h34, h35, h36⟩, ⟨h45, h46⟩, h56⟩ := hnd
  have hx : ∀ t : Nat, c.OTCRYPTO_OK.value ^^^ t ^^^ t = c.OTCRYPTO_OK.value := by
    intro t; rw [Nat.xor_assoc, Nat.xor_self, Nat.xor_zero]
  simp only [symmetricTags, List.mem_cons, List.mem_singleton, List.not_mem_nil, or_false] at htag
  unfold keyblob_ensure_xor_masked
  rcases htag with h | h | h | h <;>
    simp [hhw, h, hx, HARDENED_CHECK_NE_of_ne, h12, h13, h14, h15, h16, h23, h24, h25, h26,
      h34, h35, h36, h45, h46, Ne.symm h12, Ne.symm h13, Ne.symm h14, Ne.symm h23,
      Ne.symm h24, Ne.symm h34]

/-- Under a well-formed environment `keyblob_ensure_xor_masked` is a total decision:
OK for a key that is not hardware-backed and has a symmetric tag, BAD_ARGS otherwise. -/
theorem keyblob_ensure_xor_masked_eq (c : Env) (hc : c.WF) (config : crypto_key_config_t) :
    keyblob_ensure_xor_masked c config =
      .ok (if config.hw_backed = c.kHardenedBoolFalse ∧ config.key_mode >>> 16 ∈ symmetricTags c
        then c.OTCRYPTO_OK else c.OTCRYPTO_BAD_ARGS) := by
  by_cases hhw : config.hw_backed = c.kHardenedBoolFalse
  · by_cases htag : config.key_mode >>> 16 ∈ symmetricTags c
    · rw [keyblob_ensure_xor_masked_ok c hc config hhw htag, if_pos ⟨hhw, htag⟩]
    · rw [if_neg (fun h => htag h.2)]
      simp only [symmetricTags, List.mem_cons, List.mem_singleton, List.not_mem_nil, or_false,
        not_or] at htag
      obtain ⟨h1, h2, h3, h4⟩ := htag
      simp [keyblob_ensure_xor_masked, hhw, h1, h2, h3, h4]
  · rw [if_neg (fun h => hhw h.1)]
    simp [keyblob_ensure_xor_masked, hhw]

theorem HARDENED_TRY_ok (c : Env) (hc : c.WF) :
    HARDENED_TRY c (.ok c.OTCRYPTO_OK) = .ok none := by
  obtain ⟨_, _, hok, _, _, _⟩ := hc
  simp [HARDENED_TRY, hok]

theorem HARDENED_TRY_bad (c : Env) (hc : c.WF) :
    HARDENED_TRY c (.ok c.OTCRYPTO_BAD_ARGS) = .ok (some c.OTCRYPTO_BAD_ARGS) := by
  obtain ⟨_, _, hok, hne, hbit, _⟩ := hc
  have hv : c.OTCRYPTO_BAD_ARGS.value ≠ c.kHardenedBoolTrue := by
    intro h
    apply hne
    cases hb : c.OTCRYPTO_BAD_ARGS
    cases ho : c.OTCRYPTO_OK
    rw [hb] at h; rw [ho] at hok
    simp only at h hok
    rw [h, hok]
  simp [HARDENED_TRY, hv, hbit]

/-- The run of `HARDENED_TRY` on a status that is OK or BAD_ARGS. -/
theorem HARDENED_TRY_ite (c : Env) (hc : c.WF) (p : Prop) [Decidable p] :
    HARDENED_TRY c (.ok (if p then c.OTCRYPTO_OK else c.OTCRYPTO_BAD_ARGS)) =
      .ok (if p then none else some c.OTCRYPTO_BAD_ARGS) := by
  by_cases h : p
  · simp only [if_pos h, HARDENED_TRY_ok c hc]
  · simp only [if_neg h, HARDENED_TRY_bad c hc]

/-! ## The re-masking loop -/

@[simp] theorem length_remasked (mask : List Nat) (ksw kw i : Nat) (blob : List Nat) :
    (remasked mask ksw kw i blob).length = blob.length := by
  simp [remasked]

theorem getElem?_remasked (mask : List Nat) (ksw kw i : Nat) (blob : List Nat) (j : Nat) :
    (remasked mask ksw kw i blob)[j]? =
      blob[j]?.map fun w => if i ≤ j ∧ j < kw then w ^^^ mask.getD (j % ksw) 0 else w := by
  simp [remasked]

theorem remasked_of_le (mask : List Nat) (ksw kw i : Nat) (blob : List Nat) (h : kw ≤ i) :
    remasked mask ksw kw i blob = blob := by
  apply List.ext_getElem?
  intro j
  rw [getElem?_remasked]
  have : ¬ (i ≤ j ∧ j < kw) := by omega
  simp [this]

theorem remasked_set (mask : List Nat) (ksw kw i : Nat) (blob : List Nat) (w m : Nat)
    (hi : i < kw) (hw : blob[i]? = some w) (hm : mask[i % ksw]? = some m) :
    remasked mask ksw kw (i + 1) (blob.set i (w ^^^ m)) = remasked mask ksw kw i blob := by
  apply List.ext_getElem?
  intro j
  rw [getElem?_remasked, getElem?_remasked]
  by_cases hji : j = i
  · subst hji
    have hlt : j < blob.length := by
      rcases Nat.lt_or_ge j blob.length with h | h
      · exact h
      · rw [List.getElem?_eq_none h] at hw; cases hw
    have h1 : ¬ (j + 1 ≤ j ∧ j < kw) := by omega
    have h2 : j ≤ j ∧ j < kw := ⟨le_refl j, hi⟩
    simp [List.getElem?_set, hlt, hw, h1, h2, hm]
  · have h3 : (i + 1 ≤ j ∧ j < kw) ↔ (i ≤ j ∧ j < kw) := by omega
    rw [List.getElem?_set_ne (Ne.symm hji)]
    simp only [h3]

theorem read_eq_ok {a : List Nat} {i v : Nat} : read a i = .ok v ↔ a[i]? = some v := by
  unfold read
  cases h : a[i]? <;> simp

theorem write_eq_ok {a a' : List Nat} {i v : Nat} :
    write a i v = .ok a' ↔ i < a.length ∧ a' = a.set i v := by
  unfold write
  by_cases h : i < a.length
  · simp [h, eq_comm]
  · simp [h]

/-- The loop of `keyblob_remask` on storage that holds the whole blob, with a mask that
covers every index used: it ends with `i = keyblob_words` and the closed form. -/
theorem keyblob_remask_loop_ok (mask : List Nat) (ksw kw : Nat)
    (hm : ∀ j, j < kw → j % ksw < mask.length) (hk : 0 < kw → ksw ≠ 0) :
    ∀ (fuel i : Nat) (blob : List Nat), i ≤ kw → kw - i ≤ fuel → kw ≤ blob.length →
      keyblob_remask_loop mask ksw kw fuel i (some blob) =
        .ok (kw, some (remasked mask ksw kw i blob)) := by
  intro fuel
  induction fuel with
  | zero =>
    intro i blob hi hf _
    have hik : i = kw := by omega
    subst hik
    simp [keyblob_remask_loop, remasked_of_le]
  | succ fuel ih =>
    intro i blob hi hf hb
    rcases Nat.lt_or_ge i kw with hlt | hge
    · have hk0 : ksw ≠ 0 := hk (by omega)
      have hmi : i % ksw < mask.length := hm i hlt
      have hbi : i < blob.length := by omega
      have e1 : read mask (i % ksw) = .ok mask[i % ksw] :=
        read_eq_ok.mpr (List.getElem?_eq_getElem hmi)
      have e2 : load (some blob) i = .ok blob[i] :=
        read_eq_ok.mpr (List.getElem?_eq_getElem hbi)
      have e3 : store (some blob) i (blob[i] ^^^ mask[i % ksw]) =
          .ok (some (blob.set i (blob[i] ^^^ mask[i % ksw]))) := by
        simp [store, write, hbi]
      rw [keyblob_remask_loop]
      simp only [launder32_eq, if_pos hlt, if_neg hk0, e1, e2, e3, run_bind_ok]
      rw [ih (i + 1) _ (by omega) (by omega) (by simpa using hb)]
      rw [remasked_set mask ksw kw i blob _ _ hlt (List.getElem?_eq_getElem hbi)
        (List.getElem?_eq_getElem hmi)]
    · have hik : i = kw := by omega
      subst hik
      simp [keyblob_remask_loop, remasked_of_le]

/-- A loop of `keyblob_remask` that starts below `keyblob_words` and ends normally had a
non-zero divisor, non-NULL storage for the whole blob and a mask covering every index. -/
theorem keyblob_remask_loop_inv (mask : List Nat) (ksw kw : Nat) :
    ∀ (fuel i : Nat) (p : Option (List Nat)) (r : Nat × Option (List Nat)), i < kw →
      keyblob_remask_loop mask ksw kw fuel i p = .ok r →
      ksw ≠ 0 ∧ (∃ blob, p = some blob ∧ kw ≤ blob.length) ∧
        (∀ j, i ≤ j → j < kw → j % ksw < mask.length) ∧ kw - i ≤ fuel := by
  intro fuel
  induction fuel with
  | zero =>
    intro i p r hi h
    simp [keyblob_remask_loop, hi] at h
  | succ fuel ih =>
    intro i p r hi h
    rw [keyblob_remask_loop] at h
    simp only [launder32_eq, if_pos hi] at h
    by_cases hk0 : ksw = 0
    · simp [hk0] at h
    · simp only [if_neg hk0] at h
      cases hr : read mask (i % ksw) with
      | error e => simp [hr] at h
      | ok m =>
        have hmi : i % ksw < mask.length := by
          have := read_eq_ok.mp hr
          rcases Nat.lt_or_ge (i % ksw) mask.length with hh | hh
          · exact hh
          · rw [List.getElem?_eq_none hh] at this; cases this
        cases p with
        | none => simp [hr, load] at h
        | some blob =>
          cases hl : read blob i with
          | error e => simp [hr, load, hl] at h
          | ok w =>
            have hbi : i < blob.length := by
              have := read_eq_ok.mp hl
              rcases Nat.lt_or_ge i blob.length with hh | hh
              · exact hh
              · rw [List.getElem?_eq_none hh] at this; cases this
            simp only [hr, load, hl, run_bind_ok, store, write, if_pos hbi, run_pure] at h
            rcases Nat.lt_or_ge (i + 1) kw with hlt | hge
            · obtain ⟨_, ⟨blob', hb', hlen⟩, hm', hf'⟩ := ih (i + 1) _ r hlt h
              injection hb' with hb'
              subst hb'
              refine ⟨hk0, ⟨blob, rfl, by simpa using hlen⟩, ?_, by omega⟩
              intro j hij hjk
              rcases Nat.eq_or_lt_of_le hij with hij' | hij'
              · subst hij'; exact hmi
              · exact hm' j hij' hjk
            · refine ⟨hk0, ⟨blob, rfl, by omega⟩, ?_, by omega⟩
              intro j hij hjk
              have : j = i := by omega
              subst this; exact hmi

/-- What a normal end of the whole loop of `keyblob_remask` says about its start. -/
theorem keyblob_remask_loop_zero (mask : List Nat) (ksw kw : Nat) (p : Option (List Nat))
    (r : Nat × Option (List Nat)) (h : keyblob_remask_loop mask ksw kw kw 0 p = .ok r) :
    r.1 = kw ∧ (kw = 0 → r.2 = p) ∧
      (0 < kw → ksw ≠ 0 ∧ ∃ blob, p = some blob ∧ kw ≤ blob.length ∧
        (∀ j, j < kw → j % ksw < mask.length) ∧ r.2 = some (remasked mask ksw kw 0 blob)) := by
  rcases Nat.eq_zero_or_pos kw with h0 | hpos
  · subst h0
    simp [keyblob_remask_loop] at h
    subst h
    simp
  · obtain ⟨hk, ⟨blob, hp, hlen⟩, hm, _⟩ := keyblob_remask_loop_inv mask ksw kw kw 0 p r hpos h
    subst hp
    have hm' : ∀ j, j < kw → j % ksw < mask.length := fun j hj => hm j (Nat.zero_le j) hj
    rw [keyblob_remask_loop_ok mask ksw kw hm' (fun _ => hk) kw 0 blob (Nat.zero_le _)
      (by omega) hlen] at h
    injection h with h
    subst h
    exact ⟨rfl, fun h0 => by omega, fun _ => ⟨hk, blob, rfl, hlen, hm', rfl⟩⟩

/-- The run of `keyblob_remask` under a well-formed environment: the two checks decide
between BAD_ARGS with the key untouched and the loop followed by the checksum. -/
theorem keyblob_remask_eq (c : Env) (hc : c.WF) (key : crypto_blinded_key_t)
    (mask : List Nat) :
    keyblob_remask c key mask =
      if key.config.hw_backed = c.kHardenedBoolFalse ∧
          key.config.key_mode >>> 16 ∈ symmetricTags c then
        if key.keyblob_length = (numWords c key.config * 4) % 2 ^ 32 then
          keyblob_remask_loop mask (shareWords c key.config) (numWords c key.config)
              (numWords c key.config) 0 key.keyblob >>= fun r =>
            HARDENED_CHECK_EQ r.1 (numWords c key.config) >>= fun _ =>
              .ok (c.OTCRYPTO_OK,
                { key with
                  keyblob := r.2
                  checksum := c.integrity_blinded_checksum { key with keyblob := r.2 } })
        else .ok (c.OTCRYPTO_BAD_ARGS, key)
      else .ok (c.OTCRYPTO_BAD_ARGS, key) := by
  unfold keyblob_remask
  rw [keyblob_ensure_xor_masked_eq c hc, HARDENED_TRY_ite c hc, check_keyblob_length_eq,
    HARDENED_TRY_ite c hc]
  by_cases h1 : key.config.hw_backed = c.kHardenedBoolFalse ∧
      key.config.key_mode >>> 16 ∈ symmetricTags c
  · by_cases h2 : key.keyblob_length = (numWords c key.config * 4) % 2 ^ 32
    · simp only [if_pos h1, if_pos h2, run_bind_ok, keyblob_share_num_words_eq,
        keyblob_num_words_eq, run_pure]
    · simp only [if_pos h1, if_neg h2, run_bind_ok, run_pure]
  · simp only [if_neg h1, run_bind_ok, run_pure]

/-- Everything a return of OK from `keyblob_remask` implies. -/
theorem keyblob_remask_inv (c : Env) (hc : c.WF) (key key' : crypto_blinded_key_t)
    (mask : List Nat) (h : keyblob_remask c key mask = .ok (c.OTCRYPTO_OK, key')) :
    key.config.hw_backed = c.kHardenedBoolFalse ∧
    key.config.key_mode >>> 16 ∈ symmetricTags c ∧
    key.keyblob_length = (numWords c key.config * 4) % 2 ^ 32 ∧
    key' = { key with
      keyblob := key'.keyblob
      checksum := c.integrity_blinded_checksum { key with keyblob := key'.keyblob } } ∧
    (numWords c key.config = 0 → key'.keyblob = key.keyblob) ∧
    (0 < numWords c key.config → shareWords c key.config ≠ 0 ∧
      ∃ blob, key.keyblob = some blob ∧ numWords c key.config ≤ blob.length ∧
        (∀ j, j < numWords c key.config → j % shareWords c key.config < mask.length) ∧
        key'.keyblob = some (remasked mask (shareWords c key.config)
          (numWords c key.config) 0 blob)) := by
  have hne : c.OTCRYPTO_BAD_ARGS ≠ c.OTCRYPTO_OK := hc.2.2.2.1
  rw [keyblob_remask_eq c hc] at h
  by_cases h1 : key.config.hw_backed = c.kHardenedBoolFalse ∧
      key.config.key_mode >>> 16 ∈ symmetricTags c
  · by_cases h2 : key.keyblob_length = (numWords c key.config * 4) % 2 ^ 32
    · simp only [if_pos h1, if_pos h2] at h
      cases hl : keyblob_remask_loop mask (shareWords c key.config) (numWords c key.config)
          (numWords c key.config) 0 key.keyblob with
      | error e => simp [hl] at h
      | ok r =>
        obtain ⟨hr1, hr0, hrpos⟩ := keyblob_remask_loop_zero _ _ _ _ r hl
        simp only [hl, run_bind_ok, hr1, HARDENED_CHECK_EQ_self] at h
        injection h with h
        injection h with _ h
        subst h
        exact ⟨h1.1, h1.2, h2, rfl, hr0, hrpos⟩
    · simp only [if_pos h1, if_neg h2] at h
      injection h with h
      injection h with h _
      exact absurd h hne
  · simp only [if_neg h1] at h
    injection h with h
    injection h with h _
    exact absurd h hne

theorem xor_mask_cancel (a b m : Nat) : (a ^^^ m) ^^^ (b ^^^ m) = a ^^^ b := by
  rw [Nat.xor_comm b m, Nat.xor_assoc, ← Nat.xor_assoc m m b, Nat.xor_self, Nat.zero_xor]

theorem xor_xor_self (a m : Nat) : (a ^^^ m) ^^^ m = a := by
  rw [Nat.xor_assoc, Nat.xor_self, Nat.xor_zero]

theorem ceil_div_four_le (x : Nat) (h : x < 2 ^ 32) : ceil_div x 4 ≤ 2 ^ 30 := by
  unfold ceil_div
  omega

theorem shareWords_le (c : Env) (config : crypto_key_config_t)
    (h : config.key_length < 2 ^ 32) : shareWords c config ≤ 2 ^ 30 := by
  unfold shareWords
  apply ceil_div_four_le
  unfold shareBytes
  split
  · exact Nat.mod_lt _ (by norm_num)
  · exact h

/-- A key that is not hardware-backed has a blob of two shares. -/
theorem numWords_of_not_hw (c : Env) (config : crypto_key_config_t)
    (hhw : config.hw_backed ≠ c.kHardenedBoolTrue) (h : config.key_length < 2 ^ 32) :
    numWords c config = 2 * shareWords c config := by
  have := shareWords_le c config h
  unfold numWords
  rw [if_neg hhw]
  omega

theorem load_some_eq_ok {blob : List Nat} {i : Nat} (h : i < blob.length) :
    load (some blob) i = .ok blob[i] :=
  read_eq_ok.mpr (List.getElem?_eq_getElem h)

/-- Reading a re-masked word. -/
theorem load_remasked (mask : List Nat) (ksw kw : Nat) (blob : List Nat) (i : Nat)
    (hi : i < kw) (hbi : i < blob.length) (hm : i % ksw < mask.length) :
    load (some (remasked mask ksw kw 0 blob)) i = .ok (blob[i] ^^^ mask[i % ksw]) := by
  unfold load
  rw [read_eq_ok, getElem?_remasked, List.getElem?_eq_getElem hbi]
  simp [hi, List.getD_eq_getElem?_getD, List.getElem?_eq_getElem hm]

/-- The pointwise effect of a successful `keyblob_remask`, shared by the contracts below. -/
theorem keyblob_remask_words (c : Env) (hc : c.WF) (key key' : crypto_blinded_key_t)
    (mask : List Nat) (h : keyblob_remask c key mask = .ok (c.OTCRYPTO_OK, key')) :
    ∀ i, i < numWords c key.config →
      ∃ o m, load key.keyblob i = .ok o ∧ read mask (i % shareWords c key.config) = .ok m ∧
        load key'.keyblob i = .ok (o ^^^ m) := by
  obtain ⟨_, _, _, _, _, hpos⟩ := keyblob_remask_inv c hc key key' mask h
  intro i hi
  obtain ⟨_, blob, hb, hlen, hm, hb'⟩ := hpos (by omega)
  have hbi : i < blob.length := by omega
  have hmi : i % shareWords c key.config < mask.length := hm i hi
  refine ⟨blob[i], mask[i % shareWords c key.config], ?_, ?_, ?_⟩
  · rw [hb]; exact load_some_eq_ok hbi
  · exact read_eq_ok.mpr (List.getElem?_eq_getElem hmi)
  · rw [hb']; exact load_remasked mask _ _ blob i hi hbi hmi

/-- The run of `keyblob_remask` on a key that passes both checks and whose storage and
mask are large enough. -/
theorem keyblob_remask_run (c : Env) (hc : c.WF) (key : crypto_blinded_key_t)
    (blob mask : List Nat)
    (hhw : key.config.hw_backed = c.kHardenedBoolFalse)
    (htag : key.config.key_mode >>> 16 ∈ symmetricTags c)
    (hlen : key.keyblob_length = (numWords c key.config * 4) % 2 ^ 32)
    (hb : key.keyblob = some blob) (hsz : numWords c key.config ≤ blob.length)
    (hm : shareWords c key.config ≤ mask.length) :
    keyblob_remask c key mask =
      .ok (c.OTCRYPTO_OK,
        { key with
          keyblob := some (remasked mask (shareWords c key.config) (numWords c key.config) 0 blob)
          checksum := c.integrity_blinded_checksum
            { key with
              keyblob := some (remasked mask (shareWords c key.config)
                (numWords c key.config) 0 blob) } }) := by
  have hne : key.config.hw_backed ≠ c.kHardenedBoolTrue := by
    rw [hhw]; exact Ne.symm hc.1
  have hk : 0 < numWords c key.config → shareWords c key.config ≠ 0 := by
    intro hpos h0
    unfold numWords at hpos
    rw [if_neg hne, h0] at hpos
    simp at hpos
  have hm' : ∀ j, j < numWords c key.config → j % shareWords c key.config < mask.length := by
    intro j hj
    have := Nat.mod_lt j (Nat.pos_of_ne_zero (hk (by omega)))
    omega
  rw [keyblob_remask_eq c hc, if_pos ⟨hhw, htag⟩, if_pos hlen, hb,
    keyblob_remask_loop_ok mask _ _ hm' hk _ 0 blob (Nat.zero_le _) (by omega) hsz]
  simp

/-! ## Contracts of `keyblob_remask` -/

/-- C2. `keyblob_remask` preserves the recoverable key: whenever it returns OK (for a
key whose `key_length` is a 32-bit value), with `s = keyblob_share_num_words(config)`,
every `i < s` has `keyblob[i] XOR keyblob[i + s]` the same after the call as before. -/
theorem keyblob_remask_preserves_key (c : Env) (hc : c.WF) (key key' : crypto_blinded_key_t)
    (mask : List Nat) (hkl : key.config.key_length < 2 ^ 32)
    (h : keyblob_remask c key mask = .ok (c.OTCRYPTO_OK, key')) :
    ∃ s, keyblob_share_num_words c key.config = .ok s ∧
      ∀ i, i < s → ∃ a b a' b',
        load key.keyblob i = .ok a ∧ load key.keyblob (i + s) = .ok b ∧
        load key'.keyblob i = .ok a' ∧ load key'.keyblob (i + s) = .ok b' ∧
        a' ^^^ b' = a ^^^ b := by
  refine ⟨shareWords c key.config, keyblob_share_num_words_eq c key.config, ?_⟩
  intro i hi
  obtain ⟨hhw, _, _, _, _, _⟩ := keyblob_remask_inv c hc key key' mask h
  have hne : key.config.hw_backed ≠ c.kHardenedBoolTrue := by
    rw [hhw]; exact Ne.symm hc.1
  have hn := numWords_of_not_hw c key.config hne hkl
  have hw := keyblob_remask_words c hc key key' mask h
  obtain ⟨a, m, ha, hm, ha'⟩ := hw i (by omega)
  obtain ⟨b, m', hb, hm', hb'⟩ := hw (i + shareWords c key.config) (by omega)
  have hmod : (i + shareWords c key.config) % shareWords c key.config
      = i % shareWords c key.config := by simp
  rw [hmod, hm] at hm'
  injection hm' with hm'
  subst hm'
  exact ⟨a, b, a ^^^ m, b ^^^ m, ha, hb, ha', hb', xor_mask_cancel a b m⟩

/-- C3. `keyblob_remask` is an involution on the blob: for a key that is XOR-maskable,
has the valid `keyblob_length` and whose storage holds `keyblob_num_words(config)` words,
and for a mask of `keyblob_share_num_words(config)` words, two calls with the same mask
both return OK and leave the keyblob word for word as it was. -/
theorem keyblob_remask_involution (c : Env) (hc : c.WF) (key : crypto_blinded_key_t)
    (blob mask : List Nat)
    (hx : keyblob_ensure_xor_masked c key.config = .ok c.OTCRYPTO_OK)
    (hl : check_keyblob_length c key = .ok c.OTCRYPTO_OK)
    (hb : key.keyblob = some blob)
    (hsz : keyblob_num_words c key.config = .ok blob.length)
    (hm : keyblob_share_num_words c key.config = .ok mask.length) :
    ∃ key1 key2, keyblob_remask c key mask = .ok (c.OTCRYPTO_OK, key1) ∧
      keyblob_remask c key1 mask = .ok (c.OTCRYPTO_OK, key2) ∧
      key2.keyblob = key.keyblob := by
  have hne : c.OTCRYPTO_BAD_ARGS ≠ c.OTCRYPTO_OK := hc.2.2.2.1
  rw [keyblob_ensure_xor_masked_eq c hc] at hx
  rw [check_keyblob_length_eq] at hl
  rw [keyblob_num_words_eq] at hsz
  rw [keyblob_share_num_words_eq] at hm
  injection hx with hx
  injection hl with hl
  injection hsz with hsz
  injection hm with hm
  have hcond : key.config.hw_backed = c.kHardenedBoolFalse ∧
      key.config.key_mode >>> 16 ∈ symmetricTags c := by
    by_contra hcon
    rw [if_neg hcon] at hx
    exact hne hx
  have hlen : key.keyblob_length = (numWords c key.config * 4) % 2 ^ 32 := by
    by_contra hcon
    rw [if_neg hcon] at hl
    exact hne hl
  have h1 := keyblob_remask_run c hc key blob mask hcond.1 hcond.2 hlen hb (by omega)
    (by omega)
  have h2 := keyblob_remask_run c hc
    { key with
      keyblob := some (remasked mask (shareWords c key.config) (numWords c key.config) 0 blob)
      checksum := c.integrity_blinded_checksum
        { key with
          keyblob := some (remasked mask (shareWords c key.config)
            (numWords c key.config) 0 blob) } }
    (remasked mask (shareWords c key.config) (numWords c key.config) 0 blob) mask
    hcond.1 hcond.2 hlen rfl (by rw [length_remasked]; exact le_of_eq hsz) (le_of_eq hm)
  refine ⟨_, _, h1, h2, ?_⟩
  show some (remasked mask (shareWords c key.config) (numWords c key.config) 0
    (remasked mask (shareWords c key.config) (numWords c key.config) 0 blob)) = key.keyblob
  rw [hb]
  congr 1
  apply List.ext_getElem?
  intro j
  simp only [getElem?_remasked]
  cases blob[j]? with
  | none => rfl
  | some w =>
    by_cases hj : j < numWords c key.config
    · simp [hj, xor_xor_self]
    · simp [hj]

/-- C4. `keyblob_remask` computes the cyclic XOR: whenever it returns OK, every word
index `i < keyblob_num_words(config)` has new `keyblob[i]` equal to old `keyblob[i]` XOR
`mask[i mod keyblob_share_num_words(config)]`, and `config` and `keyblob_length` are
unchanged. -/
theorem keyblob_remask_cyclic_xor (c : Env) (hc : c.WF) (key key' : crypto_blinded_key_t)
    (mask : List Nat) (h : keyblob_remask c key mask = .ok (c.OTCRYPTO_OK, key')) :
    ∃ n s, keyblob_num_words c key.config = .ok n ∧
      keyblob_share_num_words c key.config = .ok s ∧
      (∀ i, i < n → ∃ o m, load key.keyblob i = .ok o ∧ read mask (i % s) = .ok m ∧
        load key'.keyblob i = .ok (o ^^^ m)) ∧
      key'.config = key.config ∧ key'.keyblob_length = key.keyblob_length := by
  obtain ⟨_, _, _, hk, _, _⟩ := keyblob_remask_inv c hc key key' mask h
  exact ⟨numWords c key.config, shareWords c key.config, keyblob_num_words_eq c key.config,
    keyblob_share_num_words_eq c key.config, keyblob_remask_words c hc key key' mask h,
    by rw [hk], by rw [hk]⟩

/-- C5. Checksum freshness after `keyblob_remask`: whenever it returns OK, the stored
`checksum` is `integrity_blinded_checksum` of the key as the loop left it, that is of
the key's `config` and `keyblob_length` with the keyblob the call leaves behind, and
that keyblob is the re-masked one wherever the blob has words. -/
theorem keyblob_remask_checksum_fresh (c : Env) (hc : c.WF) (key key' : crypto_blinded_key_t)
    (mask : List Nat) (h : keyblob_remask c key mask = .ok (c.OTCRYPTO_OK, key')) :
    key'.checksum = c.integrity_blinded_checksum
      { config := key.config, keyblob_length := key.keyblob_length,
        keyblob := key'.keyblob, checksum := key.checksum } ∧
    ∃ n s, keyblob_num_words c key.config = .ok n ∧
      keyblob_share_num_words c key.config = .ok s ∧
      ∀ i, i < n → ∃ o m, load key.keyblob i = .ok o ∧ read mask (i % s) = .ok m ∧
        load key'.keyblob i = .ok (o ^^^ m) := by
  obtain ⟨_, _, _, hk, _, _⟩ := keyblob_remask_inv c hc key key' mask h
  exact ⟨by rw [hk], numWords c key.config,
    shareWords c key.config, keyblob_num_words_eq c key.config,
    keyblob_share_num_words_eq c key.config, keyblob_remask_words c hc key key' mask h⟩

/-! ## Building a blob from a key and a mask -/

theorem getElem?_xorShare (key mask : List Nat) (n i : Nat) (share0 : List Nat) (j : Nat) :
    (xorShare key mask n i share0)[j]? =
      share0[j]?.map fun w => if i ≤ j ∧ j < n then key.getD j 0 ^^^ mask.getD j 0 else w := by
  simp [xorShare]

theorem xorShare_of_le (key mask : List Nat) (n i : Nat) (share0 : List Nat) (h : n ≤ i) :
    xorShare key mask n i share0 = share0 := by
  apply List.ext_getElem?
  intro j
  rw [getElem?_xorShare]
  have : ¬ (i ≤ j ∧ j < n) := by omega
  simp [this]

theorem xorShare_set (key mask : List Nat) (n i : Nat) (share0 : List Nat) (k m : Nat)
    (hi : i < n) (hs : i < share0.length) (hk : key[i]? = some k) (hm : mask[i]? = some m) :
    xorShare key mask n (i + 1) (share0.set i (k ^^^ m)) = xorShare key mask n i share0 := by
  apply List.ext_getElem?
  intro j
  rw [getElem?_xorShare, getElem?_xorShare]
  by_cases hji : j = i
  · subst hji
    have h1 : ¬ (j + 1 ≤ j ∧ j < n) := by omega
    have h2 : j ≤ j ∧ j < n := ⟨le_refl j, hi⟩
    simp [List.getElem?_set, hs, h1, h2, hk, hm]
  · have h3 : (i + 1 ≤ j ∧ j < n) ↔ (i ≤ j ∧ j < n) := by omega
    rw [List.getElem?_set_ne (Ne.symm hji)]
    simp only [h3]

/-- The loop of `keyblob_from_key_and_mask` on inputs of at least `key_words` words. -/
theorem keyblob_from_key_and_mask_loop_ok (key mask : List Nat) (n : Nat)
    (hk : n ≤ key.length) (hm : n ≤ mask.length) :
    ∀ (fuel i : Nat) (share0 : List Nat), i ≤ n → n - i ≤ fuel → n ≤ share0.length →
      keyblob_from_key_and_mask_loop key mask n fuel i share0 =
        .ok (n, xorShare key mask n i share0) := by
  intro fuel
  induction fuel with
  | zero =>
    intro i share0 hi hf _
    have hin : i = n := by omega
    subst hin
    simp [keyblob_from_key_and_mask_loop, xorShare_of_le]
  | succ fuel ih =>
    intro i share0 hi hf hs
    rcases Nat.lt_or_ge i n with hlt | hge
    · have hki : i < key.length := by omega
      have hmi : i < mask.length := by omega
      have hsi : i < share0.length := by omega
      have e1 : read key i = .ok key[i] := read_eq_ok.mpr (List.getElem?_eq_getElem hki)
      have e2 : read mask i = .ok mask[i] := read_eq_ok.mpr (List.getElem?_eq_getElem hmi)
      have e3 : write share0 i (key[i] ^^^ mask[i]) =
          .ok (share0.set i (key[i] ^^^ mask[i])) := by
        simp [write, hsi]
      rw [keyblob_from_key_and_mask_loop]
      simp only [launder32_eq, if_pos hlt, e1, e2, e3, run_bind_ok]
      rw [ih (i + 1) _ (by omega) (by omega) (by simpa using hs)]
      rw [xorShare_set key mask n i share0 _ _ hlt hsi (List.getElem?_eq_getElem hki)
        (List.getElem?_eq_getElem hmi)]
    · have hin : i = n := by omega
      subst hin
      simp [keyblob_from_key_and_mask_loop, xorShare_of_le]

/-- The finished `share0` is the word-wise XOR of the first `key_words` words of the key
and of the mask. -/
theorem xorShare_replicate (key mask : List Nat) (n : Nat)
    (hk : n ≤ key.length) (hm : n ≤ mask.length) :
    xorShare key mask n 0 (List.replicate n 0) =
      List.zipWith (fun a b => a ^^^ b) (key.take n) (mask.take n) := by
  apply List.ext_getElem?
  intro j
  rw [getElem?_xorShare, List.getElem?_zipWith, List.getElem?_replicate]
  by_cases hj : j < n
  · have hkj : j < key.length := by omega
    have hmj : j < mask.length := by omega
    simp [hj, List.getElem?_take, List.getElem?_eq_getElem hkj,
      List.getElem?_eq_getElem hmj]
  · simp [hj, List.getElem?_take]

/-- The two copies of `keyblob_from_shares` into an output that is large enough. -/
theorem keyblob_from_shares_eq (c : Env) (share0 share1 : List Nat)
    (config : crypto_key_config_t) (keyblob : List Nat)
    (h0 : share0.length = shareWords c config) (h1 : shareWords c config ≤ share1.length)
    (hk : 2 * shareWords c config ≤ keyblob.length) :
    keyblob_from_shares c share0 share1 config keyblob =
      .ok (share0 ++ share1.take (shareWords c config)
        ++ keyblob.drop (2 * shareWords c config)) := by
  unfold keyblob_from_shares
  rw [keyblob_share_num_words_eq]
  simp only [run_bind_ok, hardened_memcpy]
  have e1 : 0 + shareWords c config ≤ share0.length ∧
      0 + shareWords c config ≤ keyblob.length := by omega
  rw [if_pos e1]
  simp only [run_bind_ok]
  have e2 : 0 + shareWords c config ≤ share1.length ∧
      shareWords c config + shareWords c config ≤
        (List.take 0 keyblob ++ List.take (shareWords c config) (List.drop 0 share0)
          ++ List.drop (0 + shareWords c config) keyblob).length := by
    simp
    omega
  rw [if_pos e2]
  congr 1
  simp only [List.take_zero, List.nil_append, List.drop_zero, Nat.zero_add]
  rw [← h0, List.take_length, List.take_left', List.drop_append_eq_append_drop]
  · simp [List.drop_drop, two_mul, List.append_assoc]
  · rfl

/-- The run of `keyblob_from_key_and_mask` under a well-formed environment: the policy
check decides between BAD_ARGS with the output untouched and the construction. -/
theorem keyblob_from_key_and_mask_eq (c : Env) (hc : c.WF) (key mask : List Nat)
    (config : crypto_key_config_t) (keyblob : List Nat) :
    keyblob_from_key_and_mask c key mask config keyblob =
      if config.hw_backed = c.kHardenedBoolFalse ∧ config.key_mode >>> 16 ∈ symmetricTags c then
        keyblob_from_key_and_mask_loop key mask (shareWords c config) (shareWords c config) 0
            (List.replicate (shareWords c config) 0) >>= fun r =>
          HARDENED_CHECK_EQ r.1 (shareWords c config) >>= fun _ =>
            keyblob_from_shares c r.2 mask config keyblob >>= fun blob =>
              .ok (c.OTCRYPTO_OK, blob)
      else .ok (c.OTCRYPTO_BAD_ARGS, keyblob) := by
  unfold keyblob_from_key_and_mask
  rw [keyblob_ensure_xor_masked_eq c hc, HARDENED_TRY_ite c hc]
  by_cases h1 : config.hw_backed = c.kHardenedBoolFalse ∧
      config.key_mode >>> 16 ∈ symmetricTags c
  · simp only [if_pos h1, run_bind_ok, keyblob_share_num_words_eq, run_pure]
  · simp only [if_neg h1, run_bind_ok, run_pure]

/-- The blob written by `keyblob_from_key_and_mask` for an eligible configuration and
buffers that are large enough. -/
theorem keyblob_from_key_and_mask_run (c : Env) (hc : c.WF) (key mask : List Nat)
    (config : crypto_key_config_t) (keyblob : List Nat)
    (hhw : config.hw_backed = c.kHardenedBoolFalse)
    (htag : config.key_mode >>> 16 ∈ symmetricTags c)
    (hk : shareWords c config ≤ key.length) (hm : shareWords c config ≤ mask.length)
    (ho : 2 * shareWords c config ≤ keyblob.length) :
    keyblob_from_key_and_mask c key mask config keyblob =
      .ok (c.OTCRYPTO_OK,
        List.zipWith (fun a b => a ^^^ b) (key.take (shareWords c config))
            (mask.take (shareWords c config))
          ++ mask.take (shareWords c config) ++ keyblob.drop (2 * shareWords c config)) := by
  rw [keyblob_from_key_and_mask_eq c hc, if_pos ⟨hhw, htag⟩,
    keyblob_from_key_and_mask_loop_ok key mask _ hk hm _ 0 _ (Nat.zero_le _) (by omega)
      (by simp)]
  simp only [run_bind_ok, HARDENED_CHECK_EQ_self]
  rw [xorShare_replicate key mask _ hk hm, keyblob_from_shares_eq c _ mask config keyblob
    (by simp [List.length_zipWith, List.length_take, hk, hm]) hm ho]
  rfl

/-- The run of `keyblob_to_shares` under a well-formed environment. -/
theorem keyblob_to_shares_eq (c : Env) (hc : c.WF) (key : crypto_blinded_key_t) :
    keyblob_to_shares c key =
      .ok (if key.keyblob_length = (numWords c key.config * 4) % 2 ^ 32
        then (c.OTCRYPTO_OK, some (0, shareWords c key.config))
        else (c.OTCRYPTO_BAD_ARGS, none)) := by
  unfold keyblob_to_shares
  rw [check_keyblob_length_eq, HARDENED_TRY_ite c hc]
  by_cases h : key.keyblob_length = (numWords c key.config * 4) % 2 ^ 32
  · simp only [if_pos h, run_bind_ok, keyblob_share_num_words_eq, run_pure]
  · simp only [if_neg h, run_bind_ok, run_pure]

theorem view_append_left (a b : List Nat) : view (some (a ++ b)) 0 a.length = some a := by
  simp [view]

theorem view_append_right (a b : List Nat) :
    view (some (a ++ b)) a.length b.length = some b := by
  simp [view]

theorem zipWith_xor_cancel : ∀ (k m : List Nat), k.length = m.length →
    List.zipWith (fun a b => a ^^^ b) (List.zipWith (fun a b => a ^^^ b) k m) m = k
  | [], _, _ => by simp
  | _ :: _, [], h => by simp at h
  | a :: k, b :: m, h => by
    simp only [List.zipWith_cons_cons, xor_xor_self, List.cons.injEq, true_and]
    exact zipWith_xor_cancel k m (by simpa using h)

/-! ## Contracts -/

/-- C1. Round trip of `keyblob_from_key_and_mask`: for every configuration with
`hw_backed` equal to the false sentinel, a 32-bit `key_length` and a key-type tag among
AES, HMAC, KMAC, KDF, every `rawKey` and `mask` of `keyblob_share_num_words(config)` words
and every output buffer of `keyblob_num_words(config)` words, the call returns OK; and for
the key built from the written blob with `keyblob_length = 4 * keyblob_num_words(config)`,
`keyblob_to_shares` returns OK with two shares whose word-wise XOR is `rawKey`. -/
theorem keyblob_from_key_and_mask_round_trip (c : Env) (hc : c.WF)
    (config : crypto_key_config_t) (rawKey mask out : List Nat) (checksum : Nat)
    (hkl : config.key_length < 2 ^ 32)
    (hhw : config.hw_backed = c.kHardenedBoolFalse)
    (htag : config.key_mode >>> 16 ∈
      [c.kKeyTypeAes, c.kKeyTypeHmac, c.kKeyTypeKmac, c.kKeyTypeKdf])
    (hkey : keyblob_share_num_words c config = .ok rawKey.length)
    (hmask : keyblob_share_num_words c config = .ok mask.length)
    (hout : keyblob_num_words c config = .ok out.length) :
    ∃ blob o0 o1 share0 share1,
      keyblob_from_key_and_mask c rawKey mask config out = .ok (c.OTCRYPTO_OK, blob) ∧
      keyblob_to_shares c
        { config := config, keyblob_length := (4 * out.length) % 2 ^ 32,
          keyblob := some blob, checksum := checksum } = .ok (c.OTCRYPTO_OK, some (o0, o1)) ∧
      view (some blob) o0 rawKey.length = some share0 ∧
      view (some blob) o1 rawKey.length = some share1 ∧
      List.zipWith (fun a b => a ^^^ b) share0 share1 = rawKey := by
  rw [keyblob_share_num_words_eq] at hkey hmask
  rw [keyblob_num_words_eq] at hout
  injection hkey with hkey
  injection hmask with hmask
  injection hout with hout
  have hne : config.hw_backed ≠ c.kHardenedBoolTrue := by
    rw [hhw]; exact Ne.symm hc.1
  have hn := numWords_of_not_hw c config hne hkl
  have hrun := keyblob_from_key_and_mask_run c hc rawKey mask config out hhw htag
    (le_of_eq hkey) (le_of_eq hmask) (by omega)
  have hd : out.drop (2 * shareWords c config) = [] := by
    apply List.drop_eq_nil_of_le; omega
  have hkm : rawKey.length = mask.length := by omega
  rw [hd, List.append_nil, hkey, List.take_length, hkm, List.take_length] at hrun
  refine ⟨_, 0, rawKey.length, List.zipWith (fun a b => a ^^^ b) rawKey mask, mask, hrun,
    ?_, ?_, ?_, ?_⟩
  · rw [keyblob_to_shares_eq c hc]
    have hl : (4 * out.length) % 2 ^ 32 = (numWords c config * 4) % 2 ^ 32 := by
      rw [hout, Nat.mul_comm]
    simp only [hl, if_true, hkey]
  · have hz : (List.zipWith (fun a b => a ^^^ b) rawKey mask).length = rawKey.length := by
      simp [List.length_zipWith]; omega
    have := view_append_left (List.zipWith (fun a b => a ^^^ b) rawKey mask) mask
    rw [hz] at this
    exact this
  · have hz : (List.zipWith (fun a b => a ^^^ b) rawKey mask).length = rawKey.length := by
      simp [List.length_zipWith]; omega
    have := view_append_right (List.zipWith (fun a b => a ^^^ b) rawKey mask) mask
    rw [hz, ← hmask, hkey] at this
    exact this
  · exact zipWith_xor_cancel rawKey mask (by omega)

/-- Witness of C1 on the 128-bit AES scenario: the blob is `[4,4,4,12,5,6,7,8]`. -/
theorem keyblob_from_key_and_mask_round_trip_witness :
    demoEnv.WF ∧ aes128.hw_backed = demoEnv.kHardenedBoolFalse ∧
    keyblob_share_num_words demoEnv aes128 = .ok [1, 2, 3, 4].length ∧
    ∃ blob o0 o1 share0 share1,
      keyblob_from_key_and_mask demoEnv [1, 2, 3, 4] [5, 6, 7, 8] aes128 (List.replicate 8 0)
        = .ok (demoEnv.OTCRYPTO_OK, blob) ∧
      keyblob_to_shares demoEnv
        { config := aes128, keyblob_length := (4 * (List.replicate 8 0).length) % 2 ^ 32,
          keyblob := some blob, checksum := 0 } = .ok (demoEnv.OTCRYPTO_OK, some (o0, o1)) ∧
      view (some blob) o0 [1, 2, 3, 4].length = some share0 ∧
      view (some blob) o1 [1, 2, 3, 4].length = some share1 ∧
      List.zipWith (fun a b => a ^^^ b) share0 share1 = [1, 2, 3, 4] :=
  ⟨by decide, by decide, by decide,
    keyblob_from_key_and_mask_round_trip demoEnv (by decide) aes128 [1, 2, 3, 4] [5, 6, 7, 8]
      (List.replicate 8 0) 0 (by decide) (by decide) (by decide) (by decide) (by decide)
      (by decide)⟩

/-- C6. No partial mutation on failure: if `keyblob_remask` returns a status other than
OK, the key (its keyblob words and its checksum) is exactly as before the call; and if
`keyblob_from_key_and_mask` returns a status other than OK, the output keyblob is exactly
as before the call. -/
theorem keyblob_no_partial_mutation (c : Env) (hc : c.WF)
    (key key' : crypto_blinded_key_t) (newMask : List Nat) (st : status_t)
    (rawKey mask out out' : List Nat) (config : crypto_key_config_t) (st' : status_t) :
    (keyblob_remask c key newMask = .ok (st, key') → st ≠ c.OTCRYPTO_OK → key' = key) ∧
    (keyblob_from_key_and_mask c rawKey mask config out = .ok (st', out') →
      st' ≠ c.OTCRYPTO_OK → out' = out) := by
  constructor
  · intro h hst
    rw [keyblob_remask_eq c hc] at h
    split at h
    · split at h
      · cases hl : keyblob_remask_loop newMask (shareWords c key.config)
            (numWords c key.config) (numWords c key.config) 0 key.keyblob with
        | error e => simp [hl] at h
        | ok r =>
          simp only [hl, run_bind_ok] at h
          cases hchk : HARDENED_CHECK_EQ r.1 (numWords c key.config) with
          | error e => simp [hchk] at h
          | ok u =>
            simp only [hchk, run_bind_ok] at h
            injection h with h
            injection h with h _
            exact absurd h.symm hst
      · injection h with h
        injection h with _ h
        exact h.symm
    · injection h with h
      injection h with _ h
      exact h.symm
  · intro h hst
    rw [keyblob_from_key_and_mask_eq c hc] at h
    split at h
    · cases hl : keyblob_from_key_and_mask_loop rawKey mask (shareWords c config)
          (shareWords c config) 0 (List.replicate (shareWords c config) 0) with
      | error e => simp [hl] at h
      | ok r =>
        simp only [hl, run_bind_ok] at h
        cases hchk : HARDENED_CHECK_EQ r.1 (shareWords c config) with
        | error e => simp [hchk] at h
        | ok u =>
          simp only [hchk, run_bind_ok] at h
          cases hs : keyblob_from_shares c r.2 mask config out with
          | error e => simp [hs] at h
          | ok b =>
            simp only [hs, run_bind_ok] at h
            injection h with h
            injection h with h _
            exact absurd h.symm hst
    · injection h with h
      injection h with _ h
      exact h.symm

/-- Witness of C6: a hardware-backed key is refused by both operations and nothing is
written. -/
theorem keyblob_no_partial_mutation_witness :
    keyblob_remask demoEnv
        { config := { aes128 with hw_backed := 0x739 }, keyblob_length := 32,
          keyblob := some [1, 2, 3, 4, 5, 6, 7, 8], checksum := 77 } [9, 9, 9, 9]
      = .ok (demoEnv.OTCRYPTO_BAD_ARGS,
        { config := { aes128 with hw_backed := 0x739 }, keyblob_length := 32,
          keyblob := some [1, 2, 3, 4, 5, 6, 7, 8], checksum := 77 }) ∧
    keyblob_from_key_and_mask demoEnv [1, 2, 3, 4] [5, 6, 7, 8]
        { aes128 with hw_backed := 0x739 } [0, 0, 0, 0, 0, 0, 0, 0]
      = .ok (demoEnv.OTCRYPTO_BAD_ARGS, [0, 0, 0, 0, 0, 0, 0, 0]) ∧
    ({ config := { aes128 with hw_backed := 0x739 }, keyblob_length := 32,
        keyblob := some [1, 2, 3, 4, 5, 6, 7, 8], checksum := 77 } : crypto_blinded_key_t)
      = { config := { aes128 with hw_backed := 0x739 }, keyblob_length := 32,
          keyblob := some [1, 2, 3, 4, 5, 6, 7, 8], checksum := 77 } ∧
    ([0, 0, 0, 0, 0, 0, 0, 0] : List Nat) = [0, 0, 0, 0, 0, 0, 0, 0] :=
  have h := keyblob_no_partial_mutation demoEnv (by decide)
    { config := { aes128 with hw_backed := 0x739 }, keyblob_length := 32,
      keyblob := some [1, 2, 3, 4, 5, 6, 7, 8], checksum := 77 }
    { config := { aes128 with hw_backed := 0x739 }, keyblob_length := 32,
      keyblob := some [1, 2, 3, 4, 5, 6, 7, 8], checksum := 77 }
    [9, 9, 9, 9] demoEnv.OTCRYPTO_BAD_ARGS [1, 2, 3, 4] [5, 6, 7, 8]
    [0, 0, 0, 0, 0, 0, 0, 0] [0, 0, 0, 0, 0, 0, 0, 0] { aes128 with hw_backed := 0x739 }
    demoEnv.OTCRYPTO_BAD_ARGS
  ⟨by decide, by decide, h.1 (by decide) (by decide), h.2 (by decide) (by decide)⟩

/-- C7. Decision table of `keyblob_ensure_xor_masked`: BAD_ARGS when `hw_backed` is the
true sentinel; BAD_ARGS when the key-type tag `key_mode >> 16` is ECC, RSA or outside the
six known tags; and for `hw_backed` equal to the false sentinel and a tag among AES, HMAC,
KMAC, KDF (whatever the low 16 bits) the returned status is exactly OTCRYPTO_OK, the fold
`OK ^ tag ^ tag` cancelling. -/
theorem keyblob_ensure_xor_masked_table (c : Env) (hc : c.WF) (config : crypto_key_config_t) :
    (config.hw_backed = c.kHardenedBoolTrue →
      keyblob_ensure_xor_masked c config = .ok c.OTCRYPTO_BAD_ARGS) ∧
    (config.key_mode >>> 16 = c.kKeyTypeEcc ∨ config.key_mode >>> 16 = c.kKeyTypeRsa ∨
        config.key_mode >>> 16 ∉ [c.kKeyTypeAes, c.kKeyTypeHmac, c.kKeyTypeKmac,
          c.kKeyTypeKdf, c.kKeyTypeEcc, c.kKeyTypeRsa] →
      keyblob_ensure_xor_masked c config = .ok c.OTCRYPTO_BAD_ARGS) ∧
    (config.hw_backed = c.kHardenedBoolFalse →
      config.key_mode >>> 16 ∈ [c.kKeyTypeAes, c.kKeyTypeHmac, c.kKeyTypeKmac,
        c.kKeyTypeKdf] →
      keyblob_ensure_xor_masked c config = .ok c.OTCRYPTO_OK ∧
      c.OTCRYPTO_OK.value ^^^ (config.key_mode >>> 16) ^^^ (config.key_mode >>> 16)
        = c.OTCRYPTO_OK.value) := by
  have hnd := hc.2.1
  simp only [List.nodup_cons, List.mem_cons, List.mem_singleton, not_or, List.not_mem_nil,
    not_false_eq_true, List.nodup_nil, and_true] at hnd
  obtain ⟨⟨_, _, _, h15, h16⟩, ⟨_, _, h25, h26⟩, ⟨_, h35, h36⟩, ⟨h45, h46⟩, _⟩ := hnd
  refine ⟨?_, ?_, ?_⟩
  · intro hhw
    rw [keyblob_ensure_xor_masked_eq c hc, if_neg]
    intro h
    exact hc.1 (hhw.symm.trans h.1)
  · intro htag
    rw [keyblob_ensure_xor_masked_eq c hc, if_neg]
    intro h
    have hs := h.2
    simp only [symmetricTags, List.mem_cons, List.mem_singleton, List.not_mem_nil,
      or_false] at hs
    rcases htag with ht | ht | ht
    · rw [ht] at hs
      rcases hs with hs | hs | hs | hs
      · exact h15 hs.symm
      · exact h25 hs.symm
      · exact h35 hs.symm
      · exact h45 hs.symm
    · rw [ht] at hs
      rcases hs with hs | hs | hs | hs
      · exact h16 hs.symm
      · exact h26 hs.symm
      · exact h36 hs.symm
      · exact h46 hs.symm
    · apply ht
      simp only [List.mem_cons, List.mem_singleton, List.not_mem_nil, or_false]
      rcases hs with hs | hs | hs | hs
      · exact Or.inl hs
      · exact Or.inr (Or.inl hs)
      · exact Or.inr (Or.inr (Or.inl hs))
      · exact Or.inr (Or.inr (Or.inr (Or.inl hs)))
  · intro hhw htag
    exact ⟨keyblob_ensure_xor_masked_ok c hc config hhw htag, xor_xor_self _ _⟩

/-- Witness of C7: one configuration for each row of the table. -/
theorem keyblob_ensure_xor_masked_table_witness :
    demoEnv.WF ∧
    keyblob_ensure_xor_masked demoEnv { aes128 with hw_backed := 0x739 }
      = .ok demoEnv.OTCRYPTO_BAD_ARGS ∧
    keyblob_ensure_xor_masked demoEnv { aes128 with key_mode := 0x15b <<< 16 ||| 7 }
      = .ok demoEnv.OTCRYPTO_BAD_ARGS ∧
    keyblob_ensure_xor_masked demoEnv { aes128 with key_mode := 0x7ee <<< 16 }
      = .ok demoEnv.OTCRYPTO_BAD_ARGS ∧
    keyblob_ensure_xor_masked demoEnv { aes128 with key_mode := 0x123 <<< 16 ||| 1 }
      = .ok demoEnv.OTCRYPTO_BAD_ARGS ∧
    (keyblob_ensure_xor_masked demoEnv { aes128 with key_mode := 0xb87 <<< 16 ||| 0xffff }
      = .ok demoEnv.OTCRYPTO_OK ∧
      demoEnv.OTCRYPTO_OK.value ^^^ ((0xb87 <<< 16 ||| 0xffff) >>> 16)
        ^^^ ((0xb87 <<< 16 ||| 0xffff) >>> 16) = demoEnv.OTCRYPTO_OK.value) :=
  ⟨by decide,
    (keyblob_ensure_xor_masked_table demoEnv (by decide)
      { aes128 with hw_backed := 0x739 }).1 (by decide),
    (keyblob_ensure_xor_masked_table demoEnv (by decide)
      { aes128 with key_mode := 0x15b <<< 16 ||| 7 }).2.1 (by decide),
    (keyblob_ensure_xor_masked_table demoEnv (by decide)
      { aes128 with key_mode := 0x7ee <<< 16 }).2.1 (by decide),
    (keyblob_ensure_xor_masked_table demoEnv (by decide)
      { aes128 with key_mode := 0x123 <<< 16 ||| 1 }).2.1 (by decide),
    (keyblob_ensure_xor_masked_table demoEnv (by decide)
      { aes128 with key_mode := 0xb87 <<< 16 ||| 0xffff }).2.2 (by decide) (by decide)⟩

/-- C8. The length check is exact: with `n = keyblob_num_words(config)`,
`check_keyblob_length` (and with it `keyblob_to_shares`) returns BAD_ARGS if and only if
`keyblob_length` differs from the `size_t` product `n * 4`, and returns OK otherwise; a
length one byte or one word above or below the expected one is rejected. -/
theorem check_keyblob_length_exact (c : Env) (hc : c.WF) (key : crypto_blinded_key_t) :
    ∃ n, keyblob_num_words c key.config = .ok n ∧
      (check_keyblob_length c key = .ok c.OTCRYPTO_BAD_ARGS ↔
        key.keyblob_length ≠ (n * 4) % 2 ^ 32) ∧
      (check_keyblob_length c key = .ok c.OTCRYPTO_OK ↔
        key.keyblob_length = (n * 4) % 2 ^ 32) ∧
      ((∃ p, keyblob_to_shares c key = .ok (c.OTCRYPTO_BAD_ARGS, p)) ↔
        key.keyblob_length ≠ (n * 4) % 2 ^ 32) ∧
      ((∃ p, keyblob_to_shares c key = .ok (c.OTCRYPTO_OK, p)) ↔
        key.keyblob_length = (n * 4) % 2 ^ 32) ∧
      ∀ d, d = 1 ∨ d = 4 →
        check_keyblob_length c { key with keyblob_length := (n * 4) % 2 ^ 32 + d }
          = .ok c.OTCRYPTO_BAD_ARGS ∧
        (d ≤ (n * 4) % 2 ^ 32 →
          check_keyblob_length c { key with keyblob_length := (n * 4) % 2 ^ 32 - d }
            = .ok c.OTCRYPTO_BAD_ARGS) := by
  have hne : c.OTCRYPTO_BAD_ARGS ≠ c.OTCRYPTO_OK := hc.2.2.2.1
  refine ⟨numWords c key.config, keyblob_num_words_eq c key.config, ?_, ?_, ?_, ?_, ?_⟩
  · rw [check_keyblob_length_eq]
    by_cases h : key.keyblob_length = (numWords c key.config * 4) % 2 ^ 32
    · rw [if_pos h]
      exact ⟨fun e => absurd (Except.ok.inj e).symm hne, fun e => absurd h e⟩
    · rw [if_neg h]
      exact ⟨fun _ => h, fun _ => rfl⟩
  · rw [check_keyblob_length_eq]
    by_cases h : key.keyblob_length = (numWords c key.config * 4) % 2 ^ 32
    · rw [if_pos h]
      exact ⟨fun _ => h, fun _ => rfl⟩
    · rw [if_neg h]
      exact ⟨fun e => absurd (Except.ok.inj e) hne, fun e => absurd e h⟩
  · rw [keyblob_to_shares_eq c hc]
    by_cases h : key.keyblob_length = (numWords c key.config * 4) % 2 ^ 32
    · rw [if_pos h]
      constructor
      · rintro ⟨p, e⟩
        injection e with e
        injection e with e _
        exact absurd e.symm hne
      · intro e
        exact absurd h e
    · rw [if_neg h]
      exact ⟨fun _ => h, fun _ => ⟨none, rfl⟩⟩
  · rw [keyblob_to_shares_eq c hc]
    by_cases h : key.keyblob_length = (numWords c key.config * 4) % 2 ^ 32
    · rw [if_pos h]
      exact ⟨fun _ => h, fun _ => ⟨_, rfl⟩⟩
    · rw [if_neg h]
      constructor
      · rintro ⟨p, e⟩
        injection e with e
        injection e with e _
        exact absurd e hne
      · intro e
        exact absurd e h
  · intro d hd
    constructor
    · rw [check_keyblob_length_eq, if_neg]
      show (numWords c key.config * 4) % 2 ^ 32 + d ≠ (numWords c key.config * 4) % 2 ^ 32
      omega
    · intro hle
      rw [check_keyblob_length_eq, if_neg]
      show (numWords c key.config * 4) % 2 ^ 32 - d ≠ (numWords c key.config * 4) % 2 ^ 32
      omega

/-- Witness of C8 on the 128-bit AES key: 32 bytes pass, 31, 33, 28 and 36 do not. -/
theorem check_keyblob_length_exact_witness :
    demoEnv.WF ∧
    ∃ n, keyblob_num_words demoEnv aes128 = .ok n ∧
      (check_keyblob_length demoEnv ⟨aes128, 32, some [4, 4, 4, 12, 5, 6, 7, 8], 0⟩
          = .ok demoEnv.OTCRYPTO_BAD_ARGS ↔ 32 ≠ (n * 4) % 2 ^ 32) ∧
      (check_keyblob_length demoEnv ⟨aes128, 32, some [4, 4, 4, 12, 5, 6, 7, 8], 0⟩
          = .ok demoEnv.OTCRYPTO_OK ↔ 32 = (n * 4) % 2 ^ 32) ∧
      ((∃ p, keyblob_to_shares demoEnv ⟨aes128, 32, some [4, 4, 4, 12, 5, 6, 7, 8], 0⟩
          = .ok (demoEnv.OTCRYPTO_BAD_ARGS, p)) ↔ 32 ≠ (n * 4) % 2 ^ 32) ∧
      ((∃ p, keyblob_to_shares demoEnv ⟨aes128, 32, some [4, 4, 4, 12, 5, 6, 7, 8], 0⟩
          = .ok (demoEnv.OTCRYPTO_OK, p)) ↔ 32 = (n * 4) % 2 ^ 32) ∧
      ∀ d, d = 1 ∨ d = 4 →
        check_keyblob_length demoEnv
            ⟨aes128, (n * 4) % 2 ^ 32 + d, some [4, 4, 4, 12, 5, 6, 7, 8], 0⟩
          = .ok demoEnv.OTCRYPTO_BAD_ARGS ∧
        (d ≤ (n * 4) % 2 ^ 32 →
          check_keyblob_length demoEnv
              ⟨aes128, (n * 4) % 2 ^ 32 - d, some [4, 4, 4, 12, 5, 6, 7, 8], 0⟩
            = .ok demoEnv.OTCRYPTO_BAD_ARGS) :=
  ⟨by decide,
    check_keyblob_length_exact demoEnv (by decide)
      ⟨aes128, 32, some [4, 4, 4, 12, 5, 6, 7, 8], 0⟩⟩

/-- C9. Share layout of `keyblob_to_shares`: for a key that is not hardware-backed
(`hw_backed` is not the true sentinel, as for the false sentinel), whose `keyblob_length`
passes the length check and whose storage holds the `keyblob_num_words(config)` words of
the blob, the call returns OK with `share0` at word offset 0 and `share1` at word offset
`keyblob_share_num_words(config)` of the same storage, the keyblob is `share0 ++ share1`,
and each share has exactly `keyblob_share_num_words(config)` words. -/
theorem keyblob_to_shares_layout (c : Env) (hc : c.WF) (key : crypto_blinded_key_t)
    (blob : List Nat) (hkl : key.config.key_length < 2 ^ 32)
    (hhw : key.config.hw_backed ≠ c.kHardenedBoolTrue)
    (hlen : check_keyblob_length c key = .ok c.OTCRYPTO_OK)
    (hb : key.keyblob = some blob)
    (hsz : keyblob_num_words c key.config = .ok blob.length) :
    ∃ n share0 share1, keyblob_share_num_words c key.config = .ok n ∧
      keyblob_to_shares c key = .ok (c.OTCRYPTO_OK, some (0, n)) ∧
      view key.keyblob 0 n = some share0 ∧ view key.keyblob n n = some share1 ∧
      share0.length = n ∧ share1.length = n ∧ blob = share0 ++ share1 := by
  have hne : c.OTCRYPTO_BAD_ARGS ≠ c.OTCRYPTO_OK := hc.2.2.2.1
  rw [check_keyblob_length_eq] at hlen
  rw [keyblob_num_words_eq] at hsz
  injection hlen with hlen
  injection hsz with hsz
  have hl : key.keyblob_length = (numWords c key.config * 4) % 2 ^ 32 := by
    by_contra hcon
    rw [if_neg hcon] at hlen
    exact hne hlen
  have hn := numWords_of_not_hw c key.config hhw hkl
  have h2 : blob.length = 2 * shareWords c key.config := by omega
  refine ⟨shareWords c key.config, blob.take (shareWords c key.config),
    blob.drop (shareWords c key.config), keyblob_share_num_words_eq c key.config, ?_, ?_, ?_,
    ?_, ?_, ?_⟩
  · rw [keyblob_to_shares_eq c hc, if_pos hl]
  · rw [hb]
    simp only [view, List.drop_zero]
    rw [if_pos (by omega)]
  · rw [hb]
    simp only [view]
    rw [if_pos (by omega), List.take_of_length_le (by rw [List.length_drop]; omega)]
  · rw [List.length_take]; omega
  · rw [List.length_drop]; omega
  · exact (List.take_append_drop _ _).symm

/-- Witness of C9 on the blob `[4,4,4,12,5,6,7,8]` of a 128-bit AES key. -/
theorem keyblob_to_shares_layout_witness :
    demoEnv.WF ∧
    check_keyblob_length demoEnv ⟨aes128, 32, some [4, 4, 4, 12, 5, 6, 7, 8], 0⟩
      = .ok demoEnv.OTCRYPTO_OK ∧
    ∃ n share0 share1, keyblob_share_num_words demoEnv aes128 = .ok n ∧
      keyblob_to_shares demoEnv ⟨aes128, 32, some [4, 4, 4, 12, 5, 6, 7, 8], 0⟩
        = .ok (demoEnv.OTCRYPTO_OK, some (0, n)) ∧
      view (some [4, 4, 4, 12, 5, 6, 7, 8]) 0 n = some share0 ∧
      view (some [4, 4, 4, 12, 5, 6, 7, 8]) n n = some share1 ∧
      share0.length = n ∧ share1.length = n ∧ [4, 4, 4, 12, 5, 6, 7, 8] = share0 ++ share1 :=
  ⟨by decide, by decide,
    keyblob_to_shares_layout demoEnv (by decide)
      ⟨aes128, 32, some [4, 4, 4, 12, 5, 6, 7, 8], 0⟩ [4, 4, 4, 12, 5, 6, 7, 8]
      (by decide) (by decide) (by decide) rfl (by decide)⟩

/-- Witness of C2: re-masking `demoKey` with `[1,1,1,1]`. -/
theorem keyblob_remask_preserves_key_witness :
    demoEnv.WF ∧ demoKey.config.key_length < 2 ^ 32 ∧
    keyblob_remask demoEnv demoKey [1, 1, 1, 1]
      = .ok (demoEnv.OTCRYPTO_OK, demoKeyRemasked) ∧
    ∃ s, keyblob_share_num_words demoEnv demoKey.config = .ok s ∧
      ∀ i, i < s → ∃ a b a' b',
        load demoKey.keyblob i = .ok a ∧ load demoKey.keyblob (i + s) = .ok b ∧
        load demoKeyRemasked.keyblob i = .ok a' ∧
        load demoKeyRemasked.keyblob (i + s) = .ok b' ∧
        a' ^^^ b' = a ^^^ b :=
  ⟨by decide, by decide, by decide,
    keyblob_remask_preserves_key demoEnv (by decide) demoKey demoKeyRemasked [1, 1, 1, 1]
      (by decide) (by decide)⟩

/-- Witness of C3: re-masking `demoKey` twice with `[1,1,1,1]`. -/
theorem keyblob_remask_involution_witness :
    demoEnv.WF ∧
    keyblob_ensure_xor_masked demoEnv demoKey.config = .ok demoEnv.OTCRYPTO_OK ∧
    check_keyblob_length demoEnv demoKey = .ok demoEnv.OTCRYPTO_OK ∧
    ∃ key1 key2, keyblob_remask demoEnv demoKey [1, 1, 1, 1]
        = .ok (demoEnv.OTCRYPTO_OK, key1) ∧
      keyblob_remask demoEnv key1 [1, 1, 1, 1] = .ok (demoEnv.OTCRYPTO_OK, key2) ∧
      key2.keyblob = demoKey.keyblob :=
  ⟨by decide, by decide, by decide,
    keyblob_remask_involution demoEnv (by decide) demoKey [4, 4, 4, 12, 5, 6, 7, 8]
      [1, 1, 1, 1] (by decide) (by decide) rfl (by decide) (by decide)⟩

/-- Witness of C4: re-masking `demoKey` with `[1,1,1,1]`. -/
theorem keyblob_remask_cyclic_xor_witness :
    demoEnv.WF ∧
    keyblob_remask demoEnv demoKey [1, 1, 1, 1]
      = .ok (demoEnv.OTCRYPTO_OK, demoKeyRemasked) ∧
    ∃ n s, keyblob_num_words demoEnv demoKey.config = .ok n ∧
      keyblob_share_num_words demoEnv demoKey.config = .ok s ∧
      (∀ i, i < n → ∃ o m, load demoKey.keyblob i = .ok o ∧
        read [1, 1, 1, 1] (i % s) = .ok m ∧
        load demoKeyRemasked.keyblob i = .ok (o ^^^ m)) ∧
      demoKeyRemasked.config = demoKey.config ∧
      demoKeyRemasked.keyblob_length = demoKey.keyblob_length :=
  ⟨by decide, by decide,
    keyblob_remask_cyclic_xor demoEnv (by decide) demoKey demoKeyRemasked [1, 1, 1, 1]
      (by decide)⟩

/-- Witness of C5: re-masking `demoKey` with `[1,1,1,1]`. -/
theorem keyblob_remask_checksum_fresh_witness :
    demoEnv.WF ∧
    keyblob_remask demoEnv demoKey [1, 1, 1, 1]
      = .ok (demoEnv.OTCRYPTO_OK, demoKeyRemasked) ∧
    (demoKeyRemasked.checksum = demoEnv.integrity_blinded_checksum
      { config := demoKey.config, keyblob_length := demoKey.keyblob_length,
        keyblob := demoKeyRemasked.keyblob, checksum := demoKey.checksum } ∧
    ∃ n s, keyblob_num_words demoEnv demoKey.config = .ok n ∧
      keyblob_share_num_words demoEnv demoKey.config = .ok s ∧
      ∀ i, i < n → ∃ o m, load demoKey.keyblob i = .ok o ∧
        read [1, 1, 1, 1] (i % s) = .ok m ∧
        load demoKeyRemasked.keyblob i = .ok (o ^^^ m)) :=
  ⟨by decide, by decide,
    keyblob_remask_checksum_fresh demoEnv (by decide) demoKey demoKeyRemasked [1, 1, 1, 1]
      (by decide)⟩

/-- Everything a return of OK from `keyblob_to_keymgr_diversification` implies: the key
is hardware-backed, its blob has the fixed size and is stored, and the output is the
version word followed by the salt built from the blob and the mode. -/
theorem keyblob_to_keymgr_diversification_inv (c : Env) (hc : c.WF)
    (key : crypto_blinded_key_t) (div div' : keymgr_diversification_t)
    (h : keyblob_to_keymgr_diversification c key div = .ok (c.OTCRYPTO_OK, div')) :
    key.config.hw_backed = c.kHardenedBoolTrue ∧
    key.keyblob_length = kHwBackedKeyblobBytes c ∧
    ∃ blob v, key.keyblob = some blob ∧ blob[0]? = some v ∧
      c.kKeymgrSaltNumWords ≤ blob.length ∧ c.kKeymgrSaltNumWords ≤ div.salt.length ∧
      div' = { version := v,
               salt := (List.take (c.kKeymgrSaltNumWords - 1) (blob.drop 1)
                 ++ div.salt.drop (c.kKeymgrSaltNumWords - 1)).set
                   (c.kKeymgrSaltNumWords - 1) key.config.key_mode } := by
  have hne : c.OTCRYPTO_BAD_ARGS ≠ c.OTCRYPTO_OK := hc.2.2.2.1
  have hN : 1 ≤ c.kKeymgrSaltNumWords := hc.2.2.2.2.2
  unfold keyblob_to_keymgr_diversification at h
  by_cases hcond : launder32 key.config.hw_backed ≠ c.kHardenedBoolTrue ∨ key.keyblob = none
  · rw [if_pos hcond] at h
    injection h with h
    injection h with h _
    exact absurd h hne
  · rw [if_neg hcond] at h
    simp only [launder32_eq, ne_eq, not_or, not_not] at hcond
    obtain ⟨hhw, hnn⟩ := hcond
    obtain ⟨_, _, h⟩ := run_bind_eq_ok.mp h
    by_cases hlen : key.keyblob_length ≠ kHwBackedKeyblobBytes c
    · rw [if_pos hlen] at h
      injection h with h
      injection h with h _
      exact absurd h hne
    · rw [if_neg hlen] at h
      simp only [ne_eq, not_not] at hlen
      obtain ⟨v, hv, h⟩ := run_bind_eq_ok.mp h
      obtain ⟨blob, hd, h⟩ := run_bind_eq_ok.mp h
      obtain ⟨salt1, hs1, h⟩ := run_bind_eq_ok.mp h
      obtain ⟨salt2, hs2, h⟩ := run_bind_eq_ok.mp h
      obtain ⟨_, _, h⟩ := run_bind_eq_ok.mp h
      obtain ⟨_, _, h⟩ := run_bind_eq_ok.mp h
      obtain ⟨_, _, h⟩ := run_bind_eq_ok.mp h
      obtain ⟨_, _, h⟩ := run_bind_eq_ok.mp h
      obtain ⟨_, _, h⟩ := run_bind_eq_ok.mp h
      obtain ⟨_, _, h⟩ := run_bind_eq_ok.mp h
      obtain ⟨_, _, h⟩ := run_bind_eq_ok.mp h
      injection h with h
      injection h with _ h
      have hkb : key.keyblob = some blob := by
        cases hk : key.keyblob with
        | none => exact absurd hk hnn
        | some b =>
          rw [hk] at hd
          injection hd with hd
          rw [hd]
      rw [hkb] at hv
      have hv0 : blob[0]? = some v := read_eq_ok.mp hv
      dsimp only [launder32] at hs1 hs2 h
      unfold hardened_memcpy at hs1
      by_cases hb1 : 1 + (c.kKeymgrSaltNumWords - 1) ≤ blob.length ∧
          0 + (c.kKeymgrSaltNumWords - 1) ≤ div.salt.length
      · rw [if_pos hb1] at hs1
        injection hs1 with hs1
        rw [List.take_zero, List.nil_append, Nat.zero_add] at hs1
        obtain ⟨hlt, hs2⟩ := write_eq_ok.mp hs2
        rw [← hs1, List.length_append, List.length_take, List.length_drop,
          List.length_drop] at hlt
        refine ⟨hhw, hlen, blob, v, hkb, hv0, by omega, by omega, ?_⟩
        rw [← h, hs2, ← hs1]
      · rw [if_neg hb1] at hs1
        cases hs1

/-- C10. Content of the extracted diversification: whenever
`keyblob_to_keymgr_diversification` returns OK, with `N = kKeymgrSaltNumWords`, the result
has `version = keyblob[0]`, `salt[j] = keyblob[j + 1]` for every `j` in `[0, N - 2]`, and
`salt[N - 1] = config.key_mode`, and the salt array keeps its size; the key is a read-only
argument of the call. -/
theorem keyblob_to_keymgr_diversification_content (c : Env) (hc : c.WF)
    (key : crypto_blinded_key_t) (div div' : keymgr_diversification_t)
    (h : keyblob_to_keymgr_diversification c key div = .ok (c.OTCRYPTO_OK, div')) :
    load key.keyblob 0 = .ok div'.version ∧
    (∀ j, j + 2 ≤ c.kKeymgrSaltNumWords →
      ∃ w, load key.keyblob (j + 1) = .ok w ∧ read div'.salt j = .ok w) ∧
    read div'.salt (c.kKeymgrSaltNumWords - 1) = .ok key.config.key_mode ∧
    div'.salt.length = div.salt.length := by
  have hN : 1 ≤ c.kKeymgrSaltNumWords := hc.2.2.2.2.2
  obtain ⟨_, _, blob, v, hkb, hv, hbl, hsl, hd⟩ :=
    keyblob_to_keymgr_diversification_inv c hc key div div' h
  subst hd
  rw [hkb]
  have htl : (List.take (c.kKeymgrSaltNumWords - 1) (blob.drop 1)).length
      = c.kKeymgrSaltNumWords - 1 := by
    rw [List.length_take, List.length_drop]; omega
  refine ⟨read_eq_ok.mpr hv, ?_, ?_, ?_⟩
  · intro j hj
    have hjb : j + 1 < blob.length := by omega
    refine ⟨blob[j + 1], load_some_eq_ok hjb, ?_⟩
    rw [read_eq_ok]
    show ((List.take (c.kKeymgrSaltNumWords - 1) (blob.drop 1)
      ++ div.salt.drop (c.kKeymgrSaltNumWords - 1)).set (c.kKeymgrSaltNumWords - 1)
        key.config.key_mode)[j]? = some blob[j + 1]
    rw [List.getElem?_set_ne (by omega), List.getElem?_append_left (by omega),
      List.getElem?_take_of_lt (by omega), List.getElem?_drop, Nat.add_comm 1 j,
      List.getElem?_eq_getElem hjb]
  · rw [read_eq_ok]
    show ((List.take (c.kKeymgrSaltNumWords - 1) (blob.drop 1)
      ++ div.salt.drop (c.kKeymgrSaltNumWords - 1)).set (c.kKeymgrSaltNumWords - 1)
        key.config.key_mode)[c.kKeymgrSaltNumWords - 1]? = some key.config.key_mode
    rw [List.getElem?_set]
    have hlt : c.kKeymgrSaltNumWords - 1 <
        (List.take (c.kKeymgrSaltNumWords - 1) (blob.drop 1)
          ++ div.salt.drop (c.kKeymgrSaltNumWords - 1)).length := by
      rw [List.length_append, htl, List.length_drop]; omega
    rw [if_pos rfl, if_pos hlt]
  · show ((List.take (c.kKeymgrSaltNumWords - 1) (blob.drop 1)
      ++ div.salt.drop (c.kKeymgrSaltNumWords - 1)).set (c.kKeymgrSaltNumWords - 1)
        key.config.key_mode).length = div.salt.length
    rw [List.length_set, List.length_append, htl, List.length_drop]
    omega

/-- Witness of C10: a hardware-backed key with blob `[10, …, 17]` and mode `0x8e90002`. -/
theorem keyblob_to_keymgr_diversification_content_witness :
    demoEnv.WF ∧
    keyblob_to_keymgr_diversification demoEnv
        { config := { aes128 with hw_backed := 0x739 }, keyblob_length := 32,
          keyblob := some [10, 11, 12, 13, 14, 15, 16, 17], checksum := 0 }
        { version := 0, salt := [0, 0, 0, 0, 0, 0, 0, 0] }
      = .ok (demoEnv.OTCRYPTO_OK,
        { version := 10, salt := [11, 12, 13, 14, 15, 16, 17, 0x8e90002] }) ∧
    (load (some [10, 11, 12, 13, 14, 15, 16, 17]) 0 = .ok 10 ∧
    (∀ j, j + 2 ≤ demoEnv.kKeymgrSaltNumWords →
      ∃ w, load (some [10, 11, 12, 13, 14, 15, 16, 17]) (j + 1) = .ok w ∧
        read [11, 12, 13, 14, 15, 16, 17, 0x8e90002] j = .ok w) ∧
    read [11, 12, 13, 14, 15, 16, 17, 0x8e90002] (demoEnv.kKeymgrSaltNumWords - 1)
      = .ok (0x8e9 <<< 16 ||| 2) ∧
    [11, 12, 13, 14, 15, 16, 17, 0x8e90002].length = [0, 0, 0, 0, 0, 0, 0, 0].length) :=
  ⟨by decide, by decide,
    keyblob_to_keymgr_diversification_content demoEnv (by decide)
      { config := { aes128 with hw_backed := 0x739 }, keyblob_length := 32,
        keyblob := some [10, 11, 12, 13, 14, 15, 16, 17], checksum := 0 }
      { version := 0, salt := [0, 0, 0, 0, 0, 0, 0, 0] }
      { version := 10, salt := [11, 12, 13, 14, 15, 16, 17, 0x8e90002] } (by decide)⟩

/-! ## Extraction of the diversification: the whole run -/

theorem take_set_self (l : List Nat) (n a : Nat) : (l.set n a).take n = l.take n := by
  apply List.ext_getElem?
  intro m
  rw [List.getElem?_take, List.getElem?_take]
  by_cases h : m < n
  · rw [if_pos h, if_pos h, List.getElem?_set_ne (by omega)]
  · rw [if_neg h, if_neg h]

theorem read_error {a : List Nat} {i : Nat} {e : Fault} (h : read a i = .error e) :
    e = .out_of_bounds := by
  unfold read at h
  cases hg : a[i]? with
  | none => rw [hg] at h; injection h with h; exact h.symm
  | some v => rw [hg] at h; cases h

theorem read_eq_error {a : List Nat} {i : Nat} (h : a.length ≤ i) :
    read a i = .error .out_of_bounds := by
  unfold read
  rw [List.getElem?_eq_none h]

/-- The run of `keyblob_to_keymgr_diversification` on a hardware-backed key of the fixed
length whose storage and whose salt array are large enough. -/
theorem keyblob_to_keymgr_diversification_run (c : Env) (hc : c.WF)
    (key : crypto_blinded_key_t) (div : keymgr_diversification_t) (blob : List Nat)
    (hhw : key.config.hw_backed = c.kHardenedBoolTrue) (hkb : key.keyblob = some blob)
    (hlen : key.keyblob_length = kHwBackedKeyblobBytes c)
    (hb : c.kKeymgrSaltNumWords ≤ blob.length)
    (hs : c.kKeymgrSaltNumWords ≤ div.salt.length) :
    ∃ v, blob[0]? = some v ∧
      keyblob_to_keymgr_diversification c key div =
        .ok (c.OTCRYPTO_OK,
          { version := v,
            salt := (List.take (c.kKeymgrSaltNumWords - 1) (blob.drop 1)
              ++ div.salt.drop (c.kKeymgrSaltNumWords - 1)).set
                (c.kKeymgrSaltNumWords - 1) key.config.key_mode }) := by
  have hN : 1 ≤ c.kKeymgrSaltNumWords := hc.2.2.2.2.2
  have h0 : 0 < blob.length := by omega
  refine ⟨blob[0], List.getElem?_eq_getElem h0, ?_⟩
  have htl : (List.take (c.kKeymgrSaltNumWords - 1) (blob.drop 1)).length
      = c.kKeymgrSaltNumWords - 1 := by
    rw [List.length_take, List.length_drop]; omega
  have hsl : (List.take (c.kKeymgrSaltNumWords - 1) (blob.drop 1)
      ++ div.salt.drop (c.kKeymgrSaltNumWords - 1)).length = div.salt.length := by
    rw [List.length_append, htl, List.length_drop]; omega
  have e0 : load (some blob) 0 = .ok blob[0] := load_some_eq_ok h0
  have e1 : hardened_memcpy div.salt 0 blob 1 (c.kKeymgrSaltNumWords - 1) =
      .ok (List.take (c.kKeymgrSaltNumWords - 1) (blob.drop 1)
        ++ div.salt.drop (c.kKeymgrSaltNumWords - 1)) := by
    unfold hardened_memcpy
    rw [if_pos ⟨by omega, by omega⟩, List.take_zero, List.nil_append, Nat.zero_add]
  have e2 : write (List.take (c.kKeymgrSaltNumWords - 1) (blob.drop 1)
        ++ div.salt.drop (c.kKeymgrSaltNumWords - 1)) (c.kKeymgrSaltNumWords - 1)
        key.config.key_mode =
      .ok ((List.take (c.kKeymgrSaltNumWords - 1) (blob.drop 1)
        ++ div.salt.drop (c.kKeymgrSaltNumWords - 1)).set (c.kKeymgrSaltNumWords - 1)
          key.config.key_mode) := by
    unfold write
    rw [if_pos (by rw [hsl]; omega)]
  have e3 : hardened_memeq c ((List.take (c.kKeymgrSaltNumWords - 1) (blob.drop 1)
        ++ div.salt.drop (c.kKeymgrSaltNumWords - 1)).set (c.kKeymgrSaltNumWords - 1)
          key.config.key_mode) 0 blob 1 (c.kKeymgrSaltNumWords - 1) =
      .ok c.kHardenedBoolTrue := by
    unfold hardened_memeq
    rw [if_pos ⟨by rw [List.length_set, hsl]; omega, by omega⟩, List.drop_zero,
      take_set_self, List.take_left' htl, if_pos rfl]
  have e4 : read ((List.take (c.kKeymgrSaltNumWords - 1) (blob.drop 1)
        ++ div.salt.drop (c.kKeymgrSaltNumWords - 1)).set (c.kKeymgrSaltNumWords - 1)
          key.config.key_mode) (c.kKeymgrSaltNumWords - 1) = .ok key.config.key_mode := by
    rw [read_eq_ok, List.getElem?_set, if_pos rfl, if_pos (by rw [hsl]; omega)]
  unfold keyblob_to_keymgr_diversification
  have hcond : ¬ (launder32 key.config.hw_backed ≠ c.kHardenedBoolTrue ∨ key.keyblob = none) := by
    rw [hkb, launder32_eq, hhw]
    simp
  rw [if_neg hcond, hhw, HARDENED_CHECK_EQ_self, run_bind_ok, if_neg (by rw [hlen]; simp), hkb]
  simp only [e0, run_bind_ok, deref, launder32_eq, e1, e2, HARDENED_CHECK_EQ_self, e3, e4,
    run_pure]

/-- The run of `keyblob_to_keymgr_diversification` on a hardware-backed key of the fixed
length whose storage or whose salt array is too small stops at the access outside it. -/
theorem keyblob_to_keymgr_diversification_oob (c : Env) (hc : c.WF)
    (key : crypto_blinded_key_t) (div : keymgr_diversification_t) (blob : List Nat)
    (hhw : key.config.hw_backed = c.kHardenedBoolTrue) (hkb : key.keyblob = some blob)
    (hlen : key.keyblob_length = kHwBackedKeyblobBytes c)
    (hsmall : ¬ (c.kKeymgrSaltNumWords ≤ blob.length ∧
      c.kKeymgrSaltNumWords ≤ div.salt.length)) :
    keyblob_to_keymgr_diversification c key div = .error .out_of_bounds := by
  have hN : 1 ≤ c.kKeymgrSaltNumWords := hc.2.2.2.2.2
  unfold keyblob_to_keymgr_diversification
  have hcond : ¬ (launder32 key.config.hw_backed ≠ c.kHardenedBoolTrue ∨ key.keyblob = none) := by
    rw [hkb, launder32_eq, hhw]
    simp
  rw [if_neg hcond, hhw, HARDENED_CHECK_EQ_self, run_bind_ok, if_neg (by rw [hlen]; simp), hkb]
  rcases Nat.eq_zero_or_pos blob.length with h0 | h0
  · have e0 : load (some blob) 0 = .error .out_of_bounds := read_eq_error (by omega)
    simp only [e0, run_bind_error]
  · have e0 : load (some blob) 0 = .ok blob[0] := load_some_eq_ok h0
    simp only [e0, run_bind_ok, deref, launder32_eq]
    by_cases hb1 : 1 + (c.kKeymgrSaltNumWords - 1) ≤ blob.length ∧
        0 + (c.kKeymgrSaltNumWords - 1) ≤ div.salt.length
    · have e1 : hardened_memcpy div.salt 0 blob 1 (c.kKeymgrSaltNumWords - 1) =
          .ok (List.take (c.kKeymgrSaltNumWords - 1) (blob.drop 1)
            ++ div.salt.drop (c.kKeymgrSaltNumWords - 1)) := by
        unfold hardened_memcpy
        rw [if_pos hb1, List.take_zero, List.nil_append, Nat.zero_add]
      have e2 : write (List.take (c.kKeymgrSaltNumWords - 1) (blob.drop 1)
            ++ div.salt.drop (c.kKeymgrSaltNumWords - 1)) (c.kKeymgrSaltNumWords - 1)
            key.config.key_mode = .error .out_of_bounds := by
        unfold write
        rw [if_neg]
        rw [List.length_append, List.length_take, List.length_drop, List.length_drop]
        omega
      simp only [e1, run_bind_ok, e2, run_bind_error]
    · have e1 : hardened_memcpy div.salt 0 blob 1 (c.kKeymgrSaltNumWords - 1) =
          .error .out_of_bounds := by
        unfold hardened_memcpy
        rw [if_neg hb1]
      simp only [e1, run_bind_error]

/-- The function `keyblob_to_keymgr_diversification` never ends in a fatal abort. -/
theorem keyblob_to_keymgr_diversification_no_abort (c : Env) (hc : c.WF)
    (key : crypto_blinded_key_t) (div : keymgr_diversification_t) :
    no_abort c (keyblob_to_keymgr_diversification c key div) := by
  by_cases hcond : launder32 key.config.hw_backed ≠ c.kHardenedBoolTrue ∨ key.keyblob = none
  · unfold keyblob_to_keymgr_diversification
    rw [if_pos hcond]
    exact Or.inr rfl
  · have hcond' := hcond
    simp only [launder32_eq, ne_eq, not_or, not_not] at hcond'
    obtain ⟨hhw, hnn⟩ := hcond'
    by_cases hlen : key.keyblob_length ≠ kHwBackedKeyblobBytes c
    · unfold keyblob_to_keymgr_diversification
      rw [if_neg hcond, hhw, HARDENED_CHECK_EQ_self, run_bind_ok, if_pos hlen]
      exact Or.inr rfl
    · simp only [ne_eq, not_not] at hlen
      cases hkb : key.keyblob with
      | none => exact absurd hkb hnn
      | some blob =>
        by_cases hb : c.kKeymgrSaltNumWords ≤ blob.length ∧
            c.kKeymgrSaltNumWords ≤ div.salt.length
        · obtain ⟨v, _, hrun⟩ :=
            keyblob_to_keymgr_diversification_run c hc key div blob hhw hkb hlen hb.1 hb.2
          rw [hrun]
          exact Or.inl rfl
        · rw [keyblob_to_keymgr_diversification_oob c hc key div blob hhw hkb hlen hb]
          exact Or.inl rfl

/-- C11. Failure conditions of `keyblob_to_keymgr_diversification`: BAD_ARGS (with the
output untouched) whenever `hw_backed` is not the true sentinel, and whenever
`keyblob_length` differs from the fixed size `kKeymgrSaltNumWords * 4`; OK for every key
with `hw_backed` equal to the true sentinel, a non-null keyblob whose storage holds the
`kKeymgrSaltNumWords` words of the blob, and `keyblob_length` equal to the fixed size. -/
theorem keyblob_to_keymgr_diversification_status (c : Env) (hc : c.WF)
    (key : crypto_blinded_key_t) (div : keymgr_diversification_t) :
    (key.config.hw_backed ≠ c.kHardenedBoolTrue →
      keyblob_to_keymgr_diversification c key div = .ok (c.OTCRYPTO_BAD_ARGS, div)) ∧
    (key.keyblob_length ≠ c.kKeymgrSaltNumWords * 4 →
      keyblob_to_keymgr_diversification c key div = .ok (c.OTCRYPTO_BAD_ARGS, div)) ∧
    (∀ blob, key.config.hw_backed = c.kHardenedBoolTrue → key.keyblob = some blob →
      key.keyblob_length = c.kKeymgrSaltNumWords * 4 →
      c.kKeymgrSaltNumWords ≤ blob.length → div.salt.length = c.kKeymgrSaltNumWords →
      ∃ div', keyblob_to_keymgr_diversification c key div = .ok (c.OTCRYPTO_OK, div')) := by
  refine ⟨?_, ?_, ?_⟩
  · intro hhw
    unfold keyblob_to_keymgr_diversification
    rw [if_pos (Or.inl (by rw [launder32_eq]; exact hhw))]
    rfl
  · intro hlen
    unfold keyblob_to_keymgr_diversification
    by_cases hcond : launder32 key.config.hw_backed ≠ c.kHardenedBoolTrue ∨ key.keyblob = none
    · rw [if_pos hcond]
      rfl
    · have hcond' := hcond
      simp only [launder32_eq, ne_eq, not_or, not_not] at hcond'
      rw [if_neg hcond, hcond'.1, HARDENED_CHECK_EQ_self, run_bind_ok,
        if_pos (by simpa [kHwBackedKeyblobBytes, kHwBackedKeyblobWords] using hlen)]
      rfl
  · intro blob hhw hkb hlen hb hs
    obtain ⟨v, _, hrun⟩ := keyblob_to_keymgr_diversification_run c hc key div blob hhw hkb
      (by simpa [kHwBackedKeyblobBytes, kHwBackedKeyblobWords] using hlen) hb (by omega)
    exact ⟨_, hrun⟩

/-- Witness of C11: a key that is not hardware-backed, a hardware-backed key one word
short, and a hardware-backed key of the fixed size. -/
theorem keyblob_to_keymgr_diversification_status_witness :
    demoEnv.WF ∧
    keyblob_to_keymgr_diversification demoEnv demoKey ⟨0, [0, 0, 0, 0, 0, 0, 0, 0]⟩
      = .ok (demoEnv.OTCRYPTO_BAD_ARGS, ⟨0, [0, 0, 0, 0, 0, 0, 0, 0]⟩) ∧
    keyblob_to_keymgr_diversification demoEnv { hwKey with keyblob_length := 28 }
        ⟨0, [0, 0, 0, 0, 0, 0, 0, 0]⟩
      = .ok (demoEnv.OTCRYPTO_BAD_ARGS, ⟨0, [0, 0, 0, 0, 0, 0, 0, 0]⟩) ∧
    ∃ div', keyblob_to_keymgr_diversification demoEnv hwKey ⟨0, [0, 0, 0, 0, 0, 0, 0, 0]⟩
      = .ok (demoEnv.OTCRYPTO_OK, div') :=
  ⟨by decide,
    (keyblob_to_keymgr_diversification_status demoEnv (by decide) demoKey
      ⟨0, [0, 0, 0, 0, 0, 0, 0, 0]⟩).1 (by decide),
    (keyblob_to_keymgr_diversification_status demoEnv (by decide)
      { hwKey with keyblob_length := 28 } ⟨0, [0, 0, 0, 0, 0, 0, 0, 0]⟩).2.1 (by decide),
    (keyblob_to_keymgr_diversification_status demoEnv (by decide) hwKey
      ⟨0, [0, 0, 0, 0, 0, 0, 0, 0]⟩).2.2 [10, 11, 12, 13, 14, 15, 16, 17]
      (by decide) rfl (by decide) (by decide) (by decide)⟩

/-! ## Building a blob: the whole run -/

/-- The loop of `keyblob_from_key_and_mask` on a key or a mask of fewer than `key_words`
words stops at the first word that is missing. -/
theorem keyblob_from_key_and_mask_loop_oob (key mask : List Nat) (n : Nat)
    (hsmall : ¬ (n ≤ key.length ∧ n ≤ mask.length)) :
    ∀ (fuel i : Nat) (share0 : List Nat), i ≤ n → n - i ≤ fuel → n ≤ share0.length →
      i ≤ key.length → i ≤ mask.length →
      keyblob_from_key_and_mask_loop key mask n fuel i share0 = .error .out_of_bounds := by
  intro fuel
  induction fuel with
  | zero =>
    intro i share0 hi hf _ hk hm
    exact absurd ⟨by omega, by omega⟩ hsmall
  | succ fuel ih =>
    intro i share0 hi hf hs hk hm
    rcases Nat.lt_or_ge i n with hlt | hge
    · rw [keyblob_from_key_and_mask_loop]
      simp only [launder32_eq, if_pos hlt]
      rcases Nat.lt_or_ge i key.length with hki | hki
      · have e1 : read key i = .ok key[i] := read_eq_ok.mpr (List.getElem?_eq_getElem hki)
        rcases Nat.lt_or_ge i mask.length with hmi | hmi
        · have e2 : read mask i = .ok mask[i] :=
            read_eq_ok.mpr (List.getElem?_eq_getElem hmi)
          have hsi : i < share0.length := by omega
          have e3 : write share0 i (key[i] ^^^ mask[i]) =
              .ok (share0.set i (key[i] ^^^ mask[i])) := by
            simp [write, hsi]
          simp only [e1, e2, e3, run_bind_ok]
          exact ih (i + 1) _ (by omega) (by omega) (by simpa using hs) (by omega) (by omega)
        · simp only [e1, run_bind_ok, read_eq_error hmi, run_bind_error]
      · simp only [read_eq_error hki, run_bind_error]
    · exact absurd ⟨by omega, by omega⟩ hsmall

/-- The whole run of `keyblob_from_shares`: two copies of `keyblob_share_num_words(config)`
words when the three arrays are large enough, an access outside them otherwise. -/
theorem keyblob_from_shares_total (c : Env) (share0 share1 : List Nat)
    (config : crypto_key_config_t) (keyblob : List Nat) :
    keyblob_from_shares c share0 share1 config keyblob =
      if shareWords c config ≤ share0.length ∧ shareWords c config ≤ share1.length ∧
          2 * shareWords c config ≤ keyblob.length then
        .ok (share0.take (shareWords c config) ++ share1.take (shareWords c config)
          ++ keyblob.drop (2 * shareWords c config))
      else .error .out_of_bounds := by
  unfold keyblob_from_shares
  rw [keyblob_share_num_words_eq]
  simp only [run_bind_ok, hardened_memcpy]
  by_cases e1 : 0 + shareWords c config ≤ share0.length ∧
      0 + shareWords c config ≤ keyblob.length
  · rw [if_pos e1]
    simp only [run_bind_ok]
    have hlen : (List.take 0 keyblob ++ List.take (shareWords c config) (List.drop 0 share0)
        ++ List.drop (0 + shareWords c config) keyblob).length = keyblob.length := by
      simp only [List.take_zero, List.nil_append, List.drop_zero, Nat.zero_add,
        List.length_append, List.length_take, List.length_drop]
      omega
    by_cases e2 : 0 + shareWords c config ≤ share1.length ∧
        shareWords c config + shareWords c config ≤
          (List.take 0 keyblob ++ List.take (shareWords c config) (List.drop 0 share0)
            ++ List.drop (0 + shareWords c config) keyblob).length
    · rw [if_pos e2, if_pos ⟨by omega, by omega, by omega⟩]
      congr 1
      simp only [List.take_zero, List.nil_append, List.drop_zero, Nat.zero_add]
      have ht : (List.take (shareWords c config) share0).length = shareWords c config := by
        rw [List.length_take]; omega
      rw [List.take_left' ht, List.drop_append_eq_append_drop, ht]
      have hd : List.drop (shareWords c config + shareWords c config)
          (List.take (shareWords c config) share0) = [] := by
        apply List.drop_eq_nil_of_le; omega
      rw [hd, List.nil_append, Nat.add_sub_cancel, List.drop_drop, two_mul]
    · rw [hlen] at e2
      have hn : ¬ (shareWords c config ≤ share0.length ∧
          shareWords c config ≤ share1.length ∧
          2 * shareWords c config ≤ keyblob.length) := by
        intro h
        exact e2 ⟨by omega, by omega⟩
      rw [if_neg (by rw [hlen]; exact e2), if_neg hn]
  · have hn : ¬ (shareWords c config ≤ share0.length ∧
        shareWords c config ≤ share1.length ∧
        2 * shareWords c config ≤ keyblob.length) := by
      intro h
      exact e1 ⟨by omega, by omega⟩
    rw [if_neg e1, if_neg hn, run_bind_error]

/-- The whole run of `keyblob_from_key_and_mask` under a well-formed environment. -/
theorem keyblob_from_key_and_mask_total (c : Env) (hc : c.WF) (key mask : List Nat)
    (config : crypto_key_config_t) (keyblob : List Nat) :
    keyblob_from_key_and_mask c key mask config keyblob =
      if config.hw_backed = c.kHardenedBoolFalse ∧ config.key_mode >>> 16 ∈ symmetricTags c then
        if shareWords c config ≤ key.length ∧ shareWords c config ≤ mask.length ∧
            2 * shareWords c config ≤ keyblob.length then
          .ok (c.OTCRYPTO_OK,
            List.zipWith (fun a b => a ^^^ b) (key.take (shareWords c config))
                (mask.take (shareWords c config))
              ++ mask.take (shareWords c config) ++ keyblob.drop (2 * shareWords c config))
        else .error .out_of_bounds
      else .ok (c.OTCRYPTO_BAD_ARGS, keyblob) := by
  by_cases h1 : config.hw_backed = c.kHardenedBoolFalse ∧
      config.key_mode >>> 16 ∈ symmetricTags c
  · rw [if_pos h1]
    by_cases h2 : shareWords c config ≤ key.length ∧ shareWords c config ≤ mask.length ∧
        2 * shareWords c config ≤ keyblob.length
    · rw [if_pos h2]
      exact keyblob_from_key_and_mask_run c hc key mask config keyblob h1.1 h1.2 h2.1 h2.2.1
        h2.2.2
    · rw [if_neg h2, keyblob_from_key_and_mask_eq c hc, if_pos h1]
      by_cases h3 : shareWords c config ≤ key.length ∧ shareWords c config ≤ mask.length
      · rw [keyblob_from_key_and_mask_loop_ok key mask _ h3.1 h3.2 _ 0 _ (Nat.zero_le _)
          (by omega) (by simp)]
        simp only [run_bind_ok, HARDENED_CHECK_EQ_self]
        rw [keyblob_from_shares_total, if_neg, run_bind_error]
        intro h4
        exact h2 ⟨h3.1, h3.2, h4.2.2⟩
      · rw [keyblob_from_key_and_mask_loop_oob key mask _ h3 _ 0 _ (Nat.zero_le _)
          (by omega) (by simp) (Nat.zero_le _) (Nat.zero_le _), run_bind_error]
  · rw [if_neg h1, keyblob_from_key_and_mask_eq c hc, if_neg h1]

theorem shareWords_aes16 (c : Env) (hc : c.WF) (config : crypto_key_config_t)
    (htag : config.key_mode >>> 16 = c.kKeyTypeAes) (hkl : config.key_length = 16) :
    shareWords c config = 4 := by
  have hnd := hc.2.1
  simp only [List.nodup_cons, List.mem_cons, List.mem_singleton, not_or, List.not_mem_nil,
    not_false_eq_true, List.nodup_nil, and_true] at hnd
  obtain ⟨⟨_, _, _, h15, _⟩, _⟩ := hnd
  unfold shareWords shareBytes
  rw [htag, if_neg h15, hkl]
  rfl

/-- C12. Blob produced by `keyblob_from_key_and_mask`: whenever it returns OK, with
`n = keyblob_share_num_words(config)`, the output has `keyblob[i] = key[i] XOR mask[i]` and
`keyblob[n + i] = mask[i]` for every `i < n`, and the result is the same for any other key
and mask with the same first `n` words; for an AES configuration with `key_length` 16 that
is not hardware-backed, key `[1,2,3,4]` and mask `[5,6,7,8]`, the blob is
`[4,4,4,12,5,6,7,8]`. -/
theorem keyblob_from_key_and_mask_blob (c : Env) (hc : c.WF) (key mask : List Nat)
    (config : crypto_key_config_t) (out out' : List Nat)
    (h : keyblob_from_key_and_mask c key mask config out = .ok (c.OTCRYPTO_OK, out')) :
    ∃ n, keyblob_share_num_words c config = .ok n ∧
      (∀ i, i < n → ∃ k m, read key i = .ok k ∧ read mask i = .ok m ∧
        read out' i = .ok (k ^^^ m) ∧ read out' (n + i) = .ok m) ∧
      (∀ key2 mask2, key2.take n = key.take n → mask2.take n = mask.take n →
        keyblob_from_key_and_mask c key2 mask2 config out = .ok (c.OTCRYPTO_OK, out')) ∧
      (∀ cfg buf, cfg.key_mode >>> 16 = c.kKeyTypeAes → cfg.key_length = 16 →
        cfg.hw_backed = c.kHardenedBoolFalse → buf.length = 8 →
        keyblob_from_key_and_mask c [1, 2, 3, 4] [5, 6, 7, 8] cfg buf
          = .ok (c.OTCRYPTO_OK, [4, 4, 4, 12, 5, 6, 7, 8])) := by
  have hne : c.OTCRYPTO_BAD_ARGS ≠ c.OTCRYPTO_OK := hc.2.2.2.1
  rw [keyblob_from_key_and_mask_total c hc] at h
  by_cases h1 : config.hw_backed = c.kHardenedBoolFalse ∧
      config.key_mode >>> 16 ∈ symmetricTags c
  · rw [if_pos h1] at h
    by_cases h2 : shareWords c config ≤ key.length ∧ shareWords c config ≤ mask.length ∧
        2 * shareWords c config ≤ out.length
    · rw [if_pos h2] at h
      injection h with h
      injection h with _ h
      obtain ⟨hk, hm, ho⟩ := h2
      have hz : (List.zipWith (fun a b => a ^^^ b) (key.take (shareWords c config))
          (mask.take (shareWords c config))).length = shareWords c config := by
        rw [List.length_zipWith, List.length_take, List.length_take]; omega
      have hmt : (mask.take (shareWords c config)).length = shareWords c config := by
        rw [List.length_take]; omega
      refine ⟨shareWords c config, keyblob_share_num_words_eq c config, ?_, ?_, ?_⟩
      · intro i hi
        have hki : i < key.length := by omega
        have hmi : i < mask.length := by omega
        refine ⟨key[i], mask[i], read_eq_ok.mpr (List.getElem?_eq_getElem hki),
          read_eq_ok.mpr (List.getElem?_eq_getElem hmi), ?_, ?_⟩
        · rw [read_eq_ok, ← h, List.append_assoc, List.getElem?_append_left (by omega),
            List.getElem?_zipWith, List.getElem?_take_of_lt hi, List.getElem?_take_of_lt hi,
            List.getElem?_eq_getElem hki, List.getElem?_eq_getElem hmi]
        · rw [read_eq_ok, ← h, List.append_assoc, List.getElem?_append_right (by omega), hz,
            Nat.add_sub_cancel_left, List.getElem?_append_left (by omega),
            List.getElem?_take_of_lt hi, List.getElem?_eq_getElem hmi]
      · intro key2 mask2 hk2 hm2
        have hk2l : shareWords c config ≤ key2.length := by
          have := congrArg List.length hk2
          rw [List.length_take, List.length_take] at this
          omega
        have hm2l : shareWords c config ≤ mask2.length := by
          have := congrArg List.length hm2
          rw [List.length_take, List.length_take] at this
          omega
        rw [keyblob_from_key_and_mask_total c hc, if_pos h1, if_pos ⟨hk2l, hm2l, ho⟩, hk2, hm2,
          h]
      · intro cfg buf htag hkl hhw hbuf
        have hs := shareWords_aes16 c hc cfg htag hkl
        have hd : buf.drop 8 = [] := List.drop_eq_nil_of_le (by omega)
        rw [keyblob_from_key_and_mask_total c hc, if_pos ⟨hhw, by simp [symmetricTags, htag]⟩,
          hs, if_pos ⟨by decide, by decide, by omega⟩, hd]
        rfl
    · rw [if_neg h2] at h
      cases h
  · rw [if_neg h1] at h
    injection h with h
    injection h with h _
    exact absurd h hne

/-- Witness of C12 on the 128-bit AES scenario. -/
theorem keyblob_from_key_and_mask_blob_witness :
    demoEnv.WF ∧
    keyblob_from_key_and_mask demoEnv [1, 2, 3, 4, 99] [5, 6, 7, 8, 98, 97] aes128
        [0, 0, 0, 0, 0, 0, 0, 0] = .ok (demoEnv.OTCRYPTO_OK, [4, 4, 4, 12, 5, 6, 7, 8]) ∧
    ∃ n, keyblob_share_num_words demoEnv aes128 = .ok n ∧
      (∀ i, i < n → ∃ k m, read [1, 2, 3, 4, 99] i = .ok k ∧
        read [5, 6, 7, 8, 98, 97] i = .ok m ∧
        read [4, 4, 4, 12, 5, 6, 7, 8] i = .ok (k ^^^ m) ∧
        read [4, 4, 4, 12, 5, 6, 7, 8] (n + i) = .ok m) ∧
      (∀ key2 mask2, key2.take n = [1, 2, 3, 4, 99].take n →
        mask2.take n = [5, 6, 7, 8, 98, 97].take n →
        keyblob_from_key_and_mask demoEnv key2 mask2 aes128 [0, 0, 0, 0, 0, 0, 0, 0]
          = .ok (demoEnv.OTCRYPTO_OK, [4, 4, 4, 12, 5, 6, 7, 8])) ∧
      (∀ cfg buf, cfg.key_mode >>> 16 = demoEnv.kKeyTypeAes → cfg.key_length = 16 →
        cfg.hw_backed = demoEnv.kHardenedBoolFalse → buf.length = 8 →
        keyblob_from_key_and_mask demoEnv [1, 2, 3, 4] [5, 6, 7, 8] cfg buf
          = .ok (demoEnv.OTCRYPTO_OK, [4, 4, 4, 12, 5, 6, 7, 8])) :=
  ⟨by decide, by decide,
    keyblob_from_key_and_mask_blob demoEnv (by decide) [1, 2, 3, 4, 99]
      [5, 6, 7, 8, 98, 97] aes128 [0, 0, 0, 0, 0, 0, 0, 0] [4, 4, 4, 12, 5, 6, 7, 8]
      (by decide)⟩

/-! ## Sizing contracts -/

theorem shareWords_ecc32 (c : Env) (config : crypto_key_config_t)
    (htag : config.key_mode >>> 16 = c.kKeyTypeEcc) (hkl : config.key_length = 32) :
    shareWords c config = 10 := by
  unfold shareWords shareBytes
  rw [if_pos htag, hkl]
  rfl

theorem ceil_div_four_spec (b : Nat) : b ≤ 4 * ceil_div b 4 ∧ 4 * ceil_div b 4 < b + 4 := by
  unfold ceil_div
  omega

/-- C13. Share sizing: for every configuration `keyblob_share_num_words` returns
`ceil(B / 4)`, the least `w` with `B ≤ 4 * w`, where the share byte count `B` is the
`size_t` sum `key_length + 8` when the key-type tag `key_mode >> 16` is ECC (the plain sum
whenever it fits in 32 bits) and `key_length` unchanged for every other tag, with no error;
AES with `key_length` 16 gives 4 words and ECC with `key_length` 32 gives `B = 40` and 10
words. -/
theorem keyblob_share_num_words_formula (c : Env) (hc : c.WF) (config : crypto_key_config_t) :
    (∃ B w, keyblob_share_num_bytes c config = .ok B ∧
      keyblob_share_num_words c config = .ok w ∧ w = ceil_div B 4 ∧
      B ≤ 4 * w ∧ 4 * w < B + 4 ∧
      (config.key_mode >>> 16 = c.kKeyTypeEcc → B = (config.key_length + 8) % 2 ^ 32) ∧
      (config.key_mode >>> 16 = c.kKeyTypeEcc → config.key_length + 8 < 2 ^ 32 →
        B = config.key_length + 8) ∧
      (config.key_mode >>> 16 ≠ c.kKeyTypeEcc → B = config.key_length)) ∧
    (config.key_mode >>> 16 = c.kKeyTypeAes → config.key_length = 16 →
      keyblob_share_num_words c config = .ok 4) ∧
    (config.key_mode >>> 16 = c.kKeyTypeEcc → config.key_length = 32 →
      keyblob_share_num_bytes c config = .ok 40 ∧
      keyblob_share_num_words c config = .ok 10) := by
  refine ⟨⟨shareBytes c config, shareWords c config, keyblob_share_num_bytes_eq c config,
    keyblob_share_num_words_eq c config, rfl, (ceil_div_four_spec _).1,
    (ceil_div_four_spec _).2, ?_, ?_, ?_⟩, ?_, ?_⟩
  · intro h
    unfold shareBytes
    rw [if_pos h]
  · intro h hlt
    unfold shareBytes
    rw [if_pos h, Nat.mod_eq_of_lt hlt]
  · intro h
    unfold shareBytes
    rw [if_neg h]
  · intro htag hkl
    rw [keyblob_share_num_words_eq, shareWords_aes16 c hc config htag hkl]
  · intro htag hkl
    constructor
    · rw [keyblob_share_num_bytes_eq]
      unfold shareBytes
      rw [if_pos htag, hkl]
      rfl
    · rw [keyblob_share_num_words_eq, shareWords_ecc32 c config htag hkl]

/-- Witness of C13 on the AES and the P-256 configuration. -/
theorem keyblob_share_num_words_formula_witness :
    demoEnv.WF ∧ keyblob_share_num_words demoEnv aes128 = .ok 4 ∧
    (keyblob_share_num_bytes demoEnv ecc256 = .ok 40 ∧
      keyblob_share_num_words demoEnv ecc256 = .ok 10) :=
  ⟨by decide,
    (keyblob_share_num_words_formula demoEnv (by decide) aes128).2.1 (by decide) (by decide),
    (keyblob_share_num_words_formula demoEnv (by decide) ecc256).2.2 (by decide) (by decide)⟩

/-- C14. Total blob sizing: `keyblob_num_words` returns the constant `kKeymgrSaltNumWords`
when `hw_backed` is the true sentinel, whatever `key_length` and `key_mode`, and
`2 * keyblob_share_num_words(config)` otherwise (for a 32-bit `key_length`); an AES
configuration with `key_length` 16 that is not hardware-backed gives 8, an ECC one with
`key_length` 32 gives 20. -/
theorem keyblob_num_words_formula (c : Env) (hc : c.WF) (config : crypto_key_config_t) :
    (config.hw_backed = c.kHardenedBoolTrue →
      ∀ key_mode key_length,
        keyblob_num_words c { config with key_mode := key_mode, key_length := key_length }
          = .ok c.kKeymgrSaltNumWords) ∧
    (config.hw_backed ≠ c.kHardenedBoolTrue → config.key_length < 2 ^ 32 →
      ∃ s, keyblob_share_num_words c config = .ok s ∧
        keyblob_num_words c config = .ok (2 * s)) ∧
    (config.hw_backed ≠ c.kHardenedBoolTrue → config.key_mode >>> 16 = c.kKeyTypeAes →
      config.key_length = 16 → keyblob_num_words c config = .ok 8) ∧
    (config.hw_backed ≠ c.kHardenedBoolTrue → config.key_mode >>> 16 = c.kKeyTypeEcc →
      config.key_length = 32 → keyblob_num_words c config = .ok 20) := by
  refine ⟨?_, ?_, ?_, ?_⟩
  · intro hhw key_mode key_length
    rw [keyblob_num_words_eq]
    unfold numWords
    rw [if_pos hhw]
  · intro hhw hkl
    refine ⟨shareWords c config, keyblob_share_num_words_eq c config, ?_⟩
    rw [keyblob_num_words_eq, numWords_of_not_hw c config hhw hkl]
  · intro hhw htag hkl
    rw [keyblob_num_words_eq, numWords_of_not_hw c config hhw (by omega),
      shareWords_aes16 c hc config htag hkl]
  · intro hhw htag hkl
    rw [keyblob_num_words_eq, numWords_of_not_hw c config hhw (by omega),
      shareWords_ecc32 c config htag hkl]

/-- Witness of C14: a hardware-backed key, the AES and the P-256 configuration. -/
theorem keyblob_num_words_formula_witness :
    demoEnv.WF ∧
    (∀ key_mode key_length,
      keyblob_num_words demoEnv
        { hwKey.config with key_mode := key_mode, key_length := key_length }
          = .ok demoEnv.kKeymgrSaltNumWords) ∧
    (∃ s, keyblob_share_num_words demoEnv aes128 = .ok s ∧
      keyblob_num_words demoEnv aes128 = .ok (2 * s)) ∧
    keyblob_num_words demoEnv aes128 = .ok 8 ∧
    keyblob_num_words demoEnv ecc256 = .ok 20 :=
  ⟨by decide,
    (keyblob_num_words_formula demoEnv (by decide) hwKey.config).1 (by decide),
    (keyblob_num_words_formula demoEnv (by decide) aes128).2.1 (by decide) (by decide),
    (keyblob_num_words_formula demoEnv (by decide) aes128).2.2.1 (by decide) (by decide)
      (by decide),
    (keyblob_num_words_formula demoEnv (by decide) ecc256).2.2.2 (by decide) (by decide)
      (by decide)⟩

/-! ## Re-masking with a mask that is not zero -/

theorem xor_ne_self (a m : Nat) (h : m ≠ 0) : a ^^^ m ≠ a := by
  intro hx
  apply h
  have h2 : a ^^^ (a ^^^ m) = a ^^^ a := by rw [hx]
  rw [← Nat.xor_assoc, Nat.xor_self, Nat.zero_xor] at h2
  exact h2

theorem exists_ne_zero_of_ne_replicate (mask : List Nat)
    (h : mask ≠ List.replicate mask.length 0) :
    ∃ (j : Nat) (m : Nat), mask[j]? = some m ∧ m ≠ 0 := by
  by_contra hcon
  apply h
  apply List.ext_getElem?
  intro j
  rw [List.getElem?_replicate]
  by_cases hj : j < mask.length
  · rw [if_pos hj, List.getElem?_eq_getElem hj]
    by_contra hne
    apply hcon
    refine ⟨j, mask[j], List.getElem?_eq_getElem hj, ?_⟩
    intro h0
    apply hne
    rw [h0]
  · rw [if_neg hj, List.getElem?_eq_none (by omega)]

/-- C15. `keyblob_remask` with a mask that is not zero changes the blob: whenever it
returns OK (for a key whose `key_length` is a 32-bit value) and the mask has
`keyblob_share_num_words(config)` words that are not all zero, the keyblob after the call
differs from the keyblob before, in a word of the `share0` half and in the word of the
`share1` half at the same position. -/
theorem keyblob_remask_changes_blob (c : Env) (hc : c.WF) (key key' : crypto_blinded_key_t)
    (mask : List Nat) (hkl : key.config.key_length < 2 ^ 32)
    (h : keyblob_remask c key mask = .ok (c.OTCRYPTO_OK, key'))
    (hm : keyblob_share_num_words c key.config = .ok mask.length)
    (hnz : mask ≠ List.replicate mask.length 0) :
    key'.keyblob ≠ key.keyblob ∧
    ∃ s j a a' b b', keyblob_share_num_words c key.config = .ok s ∧ j < s ∧
      load key.keyblob j = .ok a ∧ load key'.keyblob j = .ok a' ∧ a' ≠ a ∧
      load key.keyblob (j + s) = .ok b ∧ load key'.keyblob (j + s) = .ok b' ∧ b' ≠ b := by
  obtain ⟨j, m, hmj, hm0⟩ := exists_ne_zero_of_ne_replicate mask hnz
  rw [keyblob_share_num_words_eq] at hm
  injection hm with hm
  have hj : j < mask.length := by
    rcases Nat.lt_or_ge j mask.length with hh | hh
    · exact hh
    · rw [List.getElem?_eq_none hh] at hmj; cases hmj
  obtain ⟨hhw, _, _, _, _, _⟩ := keyblob_remask_inv c hc key key' mask h
  have hne : key.config.hw_backed ≠ c.kHardenedBoolTrue := by
    rw [hhw]; exact Ne.symm hc.1
  have hn := numWords_of_not_hw c key.config hne hkl
  have hw := keyblob_remask_words c hc key key' mask h
  obtain ⟨a, m1, ha, hm1, ha'⟩ := hw j (by omega)
  obtain ⟨b, m2, hb, hm2, hb'⟩ := hw (j + shareWords c key.config) (by omega)
  have hmod1 : j % shareWords c key.config = j := Nat.mod_eq_of_lt (by omega)
  have hmod2 : (j + shareWords c key.config) % shareWords c key.config = j := by
    rw [Nat.add_mod_right, hmod1]
  rw [hmod1, read_eq_ok, hmj] at hm1
  rw [hmod2, read_eq_ok, hmj] at hm2
  injection hm1 with hm1
  injection hm2 with hm2
  subst hm1
  subst hm2
  have hdiff : a ^^^ m ≠ a := xor_ne_self a m hm0
  refine ⟨?_, shareWords c key.config, j, a, a ^^^ m, b, b ^^^ m,
    keyblob_share_num_words_eq c key.config, by omega, ha, ha', hdiff, hb, hb',
    xor_ne_self b m hm0⟩
  intro heq
  rw [heq, ha] at ha'
  injection ha' with ha'
  exact hdiff ha'.symm

/-- Witness of C15: re-masking `demoKey` with `[1,1,1,1]`. -/
theorem keyblob_remask_changes_blob_witness :
    demoEnv.WF ∧
    keyblob_remask demoEnv demoKey [1, 1, 1, 1]
      = .ok (demoEnv.OTCRYPTO_OK, demoKeyRemasked) ∧
    ([1, 1, 1, 1] : List Nat) ≠ List.replicate [1, 1, 1, 1].length 0 ∧
    (demoKeyRemasked.keyblob ≠ demoKey.keyblob ∧
    ∃ s j a a' b b', keyblob_share_num_words demoEnv demoKey.config = .ok s ∧ j < s ∧
      load demoKey.keyblob j = .ok a ∧ load demoKeyRemasked.keyblob j = .ok a' ∧ a' ≠ a ∧
      load demoKey.keyblob (j + s) = .ok b ∧ load demoKeyRemasked.keyblob (j + s) = .ok b' ∧
      b' ≠ b) :=
  ⟨by decide, by decide, by decide,
    keyblob_remask_changes_blob demoEnv (by decide) demoKey demoKeyRemasked [1, 1, 1, 1]
      (by decide) (by decide) (by decide) (by decide)⟩

/-! ## Views and buffers against the size of the blob -/

/-- C16, counterexample. For the hardware-backed key `hwKey` (blob of 8 words, shares of
8 words) `keyblob_to_shares` returns OK although `8 + 8` exceeds `keyblob_length / 4 = 8`;
and for a key of configuration `hugeAes` with `keyblob_length = 0` it returns OK although
the shares have `2 ^ 29` words each. -/
theorem keyblob_to_shares_views_counterexample :
    (keyblob_to_shares demoEnv hwKey = .ok (demoEnv.OTCRYPTO_OK, some (0, 8)) ∧
      keyblob_share_num_words demoEnv hwKey.config = .ok 8 ∧
      ¬ (8 + 8 ≤ hwKey.keyblob_length / 4)) ∧
    (keyblob_to_shares demoEnv
        { config := hugeAes, keyblob_length := 0, keyblob := some [], checksum := 0 }
        = .ok (demoEnv.OTCRYPTO_OK, some (0, 2 ^ 29)) ∧
      keyblob_share_num_words demoEnv hugeAes = .ok (2 ^ 29) ∧
      ¬ (2 ^ 29 + 2 ^ 29 ≤ 0 / 4)) := by
  decide

/-- C16, amended. Both views returned by `keyblob_to_shares` lie inside the keyblob of a
key that is not hardware-backed and whose blob length `8 * s` bytes fits in 32 bits,
`s = keyblob_share_num_words(config)`: whenever the call returns OK, the views start at
word 0 and at word `s`, and `s + s` is at most `keyblob_length / 4`. -/
theorem keyblob_to_shares_views_inside (c : Env) (hc : c.WF) (key : crypto_blinded_key_t)
    (p : Option (Nat × Nat)) (s : Nat)
    (hhw : key.config.hw_backed ≠ c.kHardenedBoolTrue)
    (hs : keyblob_share_num_words c key.config = .ok s) (hfit : 8 * s < 2 ^ 32)
    (h : keyblob_to_shares c key = .ok (c.OTCRYPTO_OK, p)) :
    p = some (0, s) ∧ s + s ≤ key.keyblob_length / 4 ∧ key.keyblob_length = 8 * s := by
  have hne : c.OTCRYPTO_BAD_ARGS ≠ c.OTCRYPTO_OK := hc.2.2.2.1
  rw [keyblob_share_num_words_eq] at hs
  injection hs with hs
  rw [keyblob_to_shares_eq c hc] at h
  by_cases hl : key.keyblob_length = (numWords c key.config * 4) % 2 ^ 32
  · rw [if_pos hl] at h
    injection h with h
    injection h with _ h
    have hn : numWords c key.config = 2 * s := by
      unfold numWords
      rw [if_neg hhw, hs]
      omega
    rw [hn] at hl
    refine ⟨by rw [← h, hs], by omega, by omega⟩
  · rw [if_neg hl] at h
    injection h with h
    injection h with h _
    exact absurd h hne

/-- Witness of the amended C16 on `demoKey`. -/
theorem keyblob_to_shares_views_inside_witness :
    demoEnv.WF ∧ demoKey.config.hw_backed ≠ demoEnv.kHardenedBoolTrue ∧
    keyblob_to_shares demoEnv demoKey = .ok (demoEnv.OTCRYPTO_OK, some (0, 4)) ∧
    ((some (0, 4) : Option (Nat × Nat)) = some (0, 4) ∧ 4 + 4 ≤ demoKey.keyblob_length / 4 ∧
      demoKey.keyblob_length = 8 * 4) :=
  ⟨by decide, by decide, by decide,
    keyblob_to_shares_views_inside demoEnv (by decide) demoKey (some (0, 4)) 4 (by decide)
      (by decide) (by decide) (by decide)⟩

/-- C17, counterexample. For the configuration of the hardware-backed key `hwKey`,
`keyblob_num_words` is 8 while `keyblob_from_shares` copies `2 * 8` words: on a buffer of
8 words the second copy leaves the buffer, and on a buffer of 16 words the words at the
indices 8 to 15 are written. -/
theorem keyblob_from_shares_fits_counterexample :
    keyblob_num_words demoEnv hwKey.config = .ok 8 ∧
    keyblob_share_num_words demoEnv hwKey.config = .ok 8 ∧ ¬ (2 * 8 ≤ 8) ∧
    keyblob_from_shares demoEnv (List.replicate 8 1) (List.replicate 8 2) hwKey.config
      (List.replicate 8 0) = .error .out_of_bounds ∧
    keyblob_from_shares demoEnv (List.replicate 8 1) (List.replicate 8 2) hwKey.config
      (List.replicate 16 0) = .ok (List.replicate 8 1 ++ List.replicate 8 2) := by
  decide

/-- C17, amended. For every configuration that is not hardware-backed (with a 32-bit
`key_length`) an output buffer of `keyblob_num_words(config)` words is sufficient for
`keyblob_from_shares`: the call writes exactly the indices `[0, 2 * s)`,
`s = keyblob_share_num_words(config)`, this count equals `keyblob_num_words(config)`, and
every word at an index from `keyblob_num_words(config)` on is left as it was. -/
theorem keyblob_from_shares_fits (c : Env) (config : crypto_key_config_t)
    (share0 share1 out : List Nat)
    (hhw : config.hw_backed ≠ c.kHardenedBoolTrue) (hkl : config.key_length < 2 ^ 32) :
    ∃ s n, keyblob_share_num_words c config = .ok s ∧ keyblob_num_words c config = .ok n ∧
      2 * s = n ∧
      (s ≤ share0.length → s ≤ share1.length → n ≤ out.length →
        ∃ out', keyblob_from_shares c share0 share1 config out = .ok out' ∧
          out'.length = out.length ∧
          (∀ i, i < s → out'[i]? = share0[i]? ∧ out'[s + i]? = share1[i]?) ∧
          (∀ i, n ≤ i → out'[i]? = out[i]?)) := by
  have hn := numWords_of_not_hw c config hhw hkl
  refine ⟨shareWords c config, numWords c config, keyblob_share_num_words_eq c config,
    keyblob_num_words_eq c config, hn.symm, ?_⟩
  intro h0 h1 ho
  have ht0 : (share0.take (shareWords c config)).length = shareWords c config := by
    rw [List.length_take]; omega
  have ht1 : (share1.take (shareWords c config)).length = shareWords c config := by
    rw [List.length_take]; omega
  refine ⟨share0.take (shareWords c config) ++ share1.take (shareWords c config)
    ++ out.drop (2 * shareWords c config), ?_, ?_, ?_, ?_⟩
  · rw [keyblob_from_shares_total, if_pos ⟨h0, h1, by omega⟩]
  · rw [List.length_append, List.length_append, ht0, ht1, List.length_drop]
    omega
  · intro i hi
    constructor
    · rw [List.append_assoc, List.getElem?_append_left (by omega),
        List.getElem?_take_of_lt hi]
    · rw [List.append_assoc, List.getElem?_append_right (by omega), ht0,
        Nat.add_sub_cancel_left, List.getElem?_append_left (by omega),
        List.getElem?_take_of_lt hi]
  · intro i hi
    rw [List.getElem?_append_right (by rw [List.length_append, ht0, ht1]; omega),
      List.length_append, ht0, ht1, List.getElem?_drop]
    congr 1
    omega

/-- Witness of the amended C17 on the 128-bit AES configuration. -/
theorem keyblob_from_shares_fits_witness :
    aes128.hw_backed ≠ demoEnv.kHardenedBoolTrue ∧ aes128.key_length < 2 ^ 32 ∧
    ∃ s n, keyblob_share_num_words demoEnv aes128 = .ok s ∧
      keyblob_num_words demoEnv aes128 = .ok n ∧ 2 * s = n ∧
      (s ≤ [4, 4, 4, 12].length → s ≤ [5, 6, 7, 8].length →
        n ≤ [0, 0, 0, 0, 0, 0, 0, 0, 9].length →
        ∃ out', keyblob_from_shares demoEnv [4, 4, 4, 12] [5, 6, 7, 8] aes128
            [0, 0, 0, 0, 0, 0, 0, 0, 9] = .ok out' ∧
          out'.length = [0, 0, 0, 0, 0, 0, 0, 0, 9].length ∧
          (∀ i, i < s → out'[i]? = [4, 4, 4, 12][i]? ∧ out'[s + i]? = [5, 6, 7, 8][i]?) ∧
          (∀ i, n ≤ i → out'[i]? = [0, 0, 0, 0, 0, 0, 0, 0, 9][i]?)) :=
  ⟨by decide, by decide,
    keyblob_from_shares_fits demoEnv aes128 [4, 4, 4, 12] [5, 6, 7, 8]
      [0, 0, 0, 0, 0, 0, 0, 0, 9] (by decide) (by decide)⟩

/-! ## A `hw_backed` word that is neither hardened boolean -/

/-- C18, counterexample. The key `glitchedKey` has `hw_backed = 0`, which is neither
hardened boolean, and `keyblob_to_shares` returns OK for it: the length check sizes it
as a key that is not hardware-backed. -/
theorem keyblob_to_shares_unknown_hw_backed_counterexample :
    glitchedKey.config.hw_backed ≠ demoEnv.kHardenedBoolTrue ∧
    glitchedKey.config.hw_backed ≠ demoEnv.kHardenedBoolFalse ∧
    keyblob_to_shares demoEnv glitchedKey = .ok (demoEnv.OTCRYPTO_OK, some (0, 4)) := by
  decide

/-- C18, amended. For every key whose `hw_backed` is neither `kHardenedBoolTrue` nor
`kHardenedBoolFalse`, each of `keyblob_ensure_xor_masked`,
`keyblob_to_keymgr_diversification`, `keyblob_remask` and `keyblob_from_key_and_mask`
returns BAD_ARGS, which is not OK, whatever the `keyblob_length`, and leaves its output
as it was. -/
theorem keyblob_rejects_unknown_hw_backed (c : Env) (hc : c.WF) (key : crypto_blinded_key_t)
    (div : keymgr_diversification_t) (newMask rawKey mask out : List Nat)
    (h1 : key.config.hw_backed ≠ c.kHardenedBoolTrue)
    (h2 : key.config.hw_backed ≠ c.kHardenedBoolFalse) :
    c.OTCRYPTO_BAD_ARGS ≠ c.OTCRYPTO_OK ∧
    keyblob_ensure_xor_masked c key.config = .ok c.OTCRYPTO_BAD_ARGS ∧
    keyblob_to_keymgr_diversification c key div = .ok (c.OTCRYPTO_BAD_ARGS, div) ∧
    keyblob_remask c key newMask = .ok (c.OTCRYPTO_BAD_ARGS, key) ∧
    keyblob_from_key_and_mask c rawKey mask key.config out
      = .ok (c.OTCRYPTO_BAD_ARGS, out) := by
  have hcond : ¬ (key.config.hw_backed = c.kHardenedBoolFalse ∧
      key.config.key_mode >>> 16 ∈ symmetricTags c) := fun h => h2 h.1
  refine ⟨hc.2.2.2.1, ?_, ?_, ?_, ?_⟩
  · rw [keyblob_ensure_xor_masked_eq c hc, if_neg hcond]
  · unfold keyblob_to_keymgr_diversification
    rw [if_pos (Or.inl (by rw [launder32_eq]; exact h1))]
    rfl
  · rw [keyblob_remask_eq c hc, if_neg hcond]
  · rw [keyblob_from_key_and_mask_eq c hc, if_neg hcond]

/-- Witness of the amended C18 on `glitchedKey`. -/
theorem keyblob_rejects_unknown_hw_backed_witness :
    glitchedKey.config.hw_backed ≠ demoEnv.kHardenedBoolTrue ∧
    glitchedKey.config.hw_backed ≠ demoEnv.kHardenedBoolFalse ∧
    (demoEnv.OTCRYPTO_BAD_ARGS ≠ demoEnv.OTCRYPTO_OK ∧
    keyblob_ensure_xor_masked demoEnv glitchedKey.config = .ok demoEnv.OTCRYPTO_BAD_ARGS ∧
    keyblob_to_keymgr_diversification demoEnv glitchedKey ⟨0, [0, 0, 0, 0, 0, 0, 0, 0]⟩
      = .ok (demoEnv.OTCRYPTO_BAD_ARGS, ⟨0, [0, 0, 0, 0, 0, 0, 0, 0]⟩) ∧
    keyblob_remask demoEnv glitchedKey [1, 1, 1, 1]
      = .ok (demoEnv.OTCRYPTO_BAD_ARGS, glitchedKey) ∧
    keyblob_from_key_and_mask demoEnv [1, 2, 3, 4] [5, 6, 7, 8] glitchedKey.config
        [0, 0, 0, 0, 0, 0, 0, 0] = .ok (demoEnv.OTCRYPTO_BAD_ARGS, [0, 0, 0, 0, 0, 0, 0, 0])) :=
  ⟨by decide, by decide,
    keyblob_rejects_unknown_hw_backed demoEnv (by decide) glitchedKey
      ⟨0, [0, 0, 0, 0, 0, 0, 0, 0]⟩ [1, 1, 1, 1] [1, 2, 3, 4] [5, 6, 7, 8]
      [0, 0, 0, 0, 0, 0, 0, 0] (by decide) (by decide)⟩

/-! ## No fatal abort -/

theorem run_bind_eq_error {α β : Type} {x : Except Fault α} {f : α → Except Fault β}
    {e : Fault} :
    (x >>= f) = Except.error e ↔
      x = Except.error e ∨ ∃ a, x = Except.ok a ∧ f a = Except.error e := by
  cases x with
  | error e' => simp
  | ok a => simp

theorem load_error {p : Option (List Nat)} {i : Nat} {e : Fault} (h : load p i = .error e) :
    e = .out_of_bounds ∨ e = .null_deref := by
  cases p with
  | none =>
    unfold load at h
    injection h with h
    exact Or.inr h.symm
  | some a => exact Or.inl (read_error h)

theorem store_error {p : Option (List Nat)} {i v : Nat} {e : Fault}
    (h : store p i v = .error e) : e = .out_of_bounds ∨ e = .null_deref := by
  cases p with
  | none =>
    unfold store at h
    injection h with h
    exact Or.inr h.symm
  | some a =>
    unfold store write at h
    by_cases hi : i < a.length
    · simp only [if_pos hi, run_bind_ok, run_pure] at h
      cases h
    · simp only [if_neg hi, run_bind_error] at h
      injection h with h
      exact Or.inl h.symm

/-- A loop of `keyblob_remask` with enough iterations whose divisor is not zero when the
body runs stops, if it stops, at an access outside the storage. -/
theorem keyblob_remask_loop_fault (mask : List Nat) (ksw kw : Nat) (hk : 0 < kw → ksw ≠ 0) :
    ∀ (fuel i : Nat) (p : Option (List Nat)) (e : Fault), kw - i ≤ fuel →
      keyblob_remask_loop mask ksw kw fuel i p = .error e →
      e = .out_of_bounds ∨ e = .null_deref := by
  intro fuel
  induction fuel with
  | zero =>
    intro i p e hf h
    have hi : ¬ i < kw := by omega
    simp [keyblob_remask_loop, hi] at h
  | succ fuel ih =>
    intro i p e hf h
    rw [keyblob_remask_loop] at h
    by_cases hi : i < kw
    · simp only [launder32_eq, if_pos hi, if_neg (hk (by omega))] at h
      rcases run_bind_eq_error.mp h with h | ⟨m, _, h⟩
      · exact Or.inl (read_error h)
      · rcases run_bind_eq_error.mp h with h | ⟨v, _, h⟩
        · exact load_error h
        · rcases run_bind_eq_error.mp h with h | ⟨p', _, h⟩
          · exact store_error h
          · exact ih (i + 1) p' e (by omega) h
    · simp only [launder32_eq, if_neg hi] at h
      cases h

/-- The function `keyblob_remask` never ends in a fatal abort. -/
theorem keyblob_remask_no_abort (c : Env) (hc : c.WF) (key : crypto_blinded_key_t)
    (mask : List Nat) : no_abort c (keyblob_remask c key mask) := by
  rw [keyblob_remask_eq c hc]
  by_cases h1 : key.config.hw_backed = c.kHardenedBoolFalse ∧
      key.config.key_mode >>> 16 ∈ symmetricTags c
  · rw [if_pos h1]
    by_cases h2 : key.keyblob_length = (numWords c key.config * 4) % 2 ^ 32
    · rw [if_pos h2]
      have hne : key.config.hw_backed ≠ c.kHardenedBoolTrue := by
        rw [h1.1]; exact Ne.symm hc.1
      have hk : 0 < numWords c key.config → shareWords c key.config ≠ 0 := by
        intro hpos h0
        unfold numWords at hpos
        rw [if_neg hne, h0] at hpos
        simp at hpos
      cases hl : keyblob_remask_loop mask (shareWords c key.config) (numWords c key.config)
          (numWords c key.config) 0 key.keyblob with
      | error e =>
        rw [run_bind_error]
        exact keyblob_remask_loop_fault mask _ _ hk _ 0 _ e (by omega) hl
      | ok r =>
        obtain ⟨hr1, _, _⟩ := keyblob_remask_loop_zero _ _ _ _ r hl
        rw [run_bind_ok, hr1, HARDENED_CHECK_EQ_self, run_bind_ok]
        exact Or.inl rfl
    · rw [if_neg h2]
      exact Or.inr rfl
  · rw [if_neg h1]
    exact Or.inr rfl

/-- The function `keyblob_from_key_and_mask` never ends in a fatal abort. -/
theorem keyblob_from_key_and_mask_no_abort (c : Env) (hc : c.WF) (key mask : List Nat)
    (config : crypto_key_config_t) (keyblob : List Nat) :
    no_abort c (keyblob_from_key_and_mask c key mask config keyblob) := by
  rw [keyblob_from_key_and_mask_total c hc]
  split
  · split
    · exact Or.inl rfl
    · exact Or.inl rfl
  · exact Or.inr rfl

/-- The function `keyblob_to_shares` always returns, with OK or BAD_ARGS. -/
theorem keyblob_to_shares_no_abort (c : Env) (hc : c.WF) (key : crypto_blinded_key_t) :
    ∃ st p, keyblob_to_shares c key = .ok (st, p) ∧
      (st = c.OTCRYPTO_OK ∨ st = c.OTCRYPTO_BAD_ARGS) := by
  rw [keyblob_to_shares_eq c hc]
  split
  · exact ⟨_, _, rfl, Or.inl rfl⟩
  · exact ⟨_, _, rfl, Or.inr rfl⟩

theorem shareWords_zero (c : Env) (hc : c.WF) (config : crypto_key_config_t)
    (htag : config.key_mode >>> 16 ∈ symmetricTags c) (hkl : config.key_length = 0) :
    shareWords c config = 0 := by
  have hnd := hc.2.1
  simp only [List.nodup_cons, List.mem_cons, List.mem_singleton, not_or, List.not_mem_nil,
    not_false_eq_true, List.nodup_nil, and_true] at hnd
  obtain ⟨⟨_, _, _, h15, _⟩, ⟨_, _, h25, _⟩, ⟨_, h35, _⟩, ⟨h45, _⟩, _⟩ := hnd
  have hne : config.key_mode >>> 16 ≠ c.kKeyTypeEcc := by
    simp only [symmetricTags, List.mem_cons, List.mem_singleton, List.not_mem_nil,
      or_false] at htag
    rcases htag with h | h | h | h <;> rw [h]
    · exact h15
    · exact h25
    · exact h35
    · exact h45
  unfold shareWords shareBytes
  rw [if_neg hne, hkl]
  rfl

/-- What `no_abort` says about a run, spelled out. -/
theorem no_abort_spec {α : Type} (c : Env) (r : Except Fault (status_t × α))
    (h : no_abort c r) :
    r ≠ .error .trap ∧ r ≠ .error .div_by_zero ∧ r ≠ .error .out_of_fuel ∧
      ∀ st x, r = .ok (st, x) → st = c.OTCRYPTO_OK ∨ st = c.OTCRYPTO_BAD_ARGS := by
  refine ⟨?_, ?_, ?_, ?_⟩
  · intro hr
    rw [hr] at h
    rcases h with h | h <;> cases h
  · intro hr
    rw [hr] at h
    rcases h with h | h <;> cases h
  · intro hr
    rw [hr] at h
    rcases h with h | h <;> cases h
  · intro st x hr
    rw [hr] at h
    exact h

/-- On storage that holds the blob and a mask that holds a share, `keyblob_remask`
returns, and its status is OK or BAD_ARGS. -/
theorem keyblob_remask_returns (c : Env) (hc : c.WF) (key : crypto_blinded_key_t)
    (blob mask : List Nat) (hb : key.keyblob = some blob)
    (hsz : numWords c key.config ≤ blob.length)
    (hm : shareWords c key.config ≤ mask.length) :
    ∃ st key', keyblob_remask c key mask = .ok (st, key') ∧
      (st = c.OTCRYPTO_OK ∨ st = c.OTCRYPTO_BAD_ARGS) := by
  by_cases h1 : key.config.hw_backed = c.kHardenedBoolFalse ∧
      key.config.key_mode >>> 16 ∈ symmetricTags c
  · by_cases h2 : key.keyblob_length = (numWords c key.config * 4) % 2 ^ 32
    · exact ⟨_, _, keyblob_remask_run c hc key blob mask h1.1 h1.2 h2 hb hsz hm, Or.inl rfl⟩
    · refine ⟨c.OTCRYPTO_BAD_ARGS, key, ?_, Or.inr rfl⟩
      rw [keyblob_remask_eq c hc, if_pos h1, if_neg h2]
  · refine ⟨c.OTCRYPTO_BAD_ARGS, key, ?_, Or.inr rfl⟩
    rw [keyblob_remask_eq c hc, if_neg h1]

/-- On a key and a mask that hold a share and an output that holds two,
`keyblob_from_key_and_mask` returns, and its status is OK or BAD_ARGS. -/
theorem keyblob_from_key_and_mask_returns (c : Env) (hc : c.WF) (key mask : List Nat)
    (config : crypto_key_config_t) (out : List Nat)
    (hk : shareWords c config ≤ key.length) (hm : shareWords c config ≤ mask.length)
    (ho : 2 * shareWords c config ≤ out.length) :
    ∃ st out', keyblob_from_key_and_mask c key mask config out = .ok (st, out') ∧
      (st = c.OTCRYPTO_OK ∨ st = c.OTCRYPTO_BAD_ARGS) := by
  rw [keyblob_from_key_and_mask_total c hc]
  by_cases h1 : config.hw_backed = c.kHardenedBoolFalse ∧
      config.key_mode >>> 16 ∈ symmetricTags c
  · rw [if_pos h1, if_pos ⟨hk, hm, ho⟩]
    exact ⟨_, _, rfl, Or.inl rfl⟩
  · rw [if_neg h1]
    exact ⟨_, _, rfl, Or.inr rfl⟩

/-- On storage that holds the blob and a salt array of `kKeymgrSaltNumWords` words,
`keyblob_to_keymgr_diversification` returns, and its status is OK or BAD_ARGS. -/
theorem keyblob_to_keymgr_diversification_returns (c : Env) (hc : c.WF)
    (key : crypto_blinded_key_t) (div : keymgr_diversification_t) (blob : List Nat)
    (hb : key.keyblob = some blob) (hsz : numWords c key.config ≤ blob.length)
    (hs : c.kKeymgrSaltNumWords ≤ div.salt.length) :
    ∃ st div', keyblob_to_keymgr_diversification c key div = .ok (st, div') ∧
      (st = c.OTCRYPTO_OK ∨ st = c.OTCRYPTO_BAD_ARGS) := by
  by_cases hcond : launder32 key.config.hw_backed ≠ c.kHardenedBoolTrue ∨ key.keyblob = none
  · refine ⟨c.OTCRYPTO_BAD_ARGS, div, ?_, Or.inr rfl⟩
    unfold keyblob_to_keymgr_diversification
    rw [if_pos hcond]
    rfl
  · have hcond' := hcond
    simp only [launder32_eq, ne_eq, not_or, not_not] at hcond'
    obtain ⟨hhw, _⟩ := hcond'
    by_cases hlen : key.keyblob_length ≠ kHwBackedKeyblobBytes c
    · refine ⟨c.OTCRYPTO_BAD_ARGS, div, ?_, Or.inr rfl⟩
      unfold keyblob_to_keymgr_diversification
      rw [if_neg hcond, hhw, HARDENED_CHECK_EQ_self, run_bind_ok, if_pos hlen]
      rfl
    · simp only [ne_eq, not_not] at hlen
      have hn : numWords c key.config = c.kKeymgrSaltNumWords := by
        unfold numWords
        rw [if_pos hhw]
      obtain ⟨v, _, hrun⟩ := keyblob_to_keymgr_diversification_run c hc key div blob hhw hb
        hlen (by omega) hs
      exact ⟨_, _, hrun, Or.inl rfl⟩

/-- C19. No fatal abort without a fault, with `launder32` the identity. For every input:
`keyblob_share_num_words`, `keyblob_num_words`, `keyblob_to_shares` and
`keyblob_ensure_xor_masked` return, the latter two with OK or BAD_ARGS; no run of
`keyblob_to_keymgr_diversification`, `keyblob_from_key_and_mask` or `keyblob_remask` ends at
a hardened check or `HARDENED_TRAP`, at a modulo by zero, or for lack of loop iterations,
and every status they return is OK or BAD_ARGS. For every input whose arrays hold the
words the operation indexes (the blob of `keyblob_num_words(config)` words, a share of
`keyblob_share_num_words(config)` words, the salt of `kKeymgrSaltNumWords` words) each of
the three does return, with OK or BAD_ARGS; a NULL keyblob is refused by
`keyblob_to_keymgr_diversification`; and an eligible key of `key_length = 0` is re-masked
with OK, the loop body and its modulo never being reached. -/
theorem keyblob_no_fatal_abort (c : Env) (hc : c.WF) (config : crypto_key_config_t)
    (key : crypto_blinded_key_t) (div : keymgr_diversification_t)
    (rawKey mask out newMask : List Nat) :
    (∃ n, keyblob_share_num_words c config = .ok n) ∧
    (∃ n, keyblob_num_words c config = .ok n) ∧
    (∃ st p, keyblob_to_shares c key = .ok (st, p) ∧
      (st = c.OTCRYPTO_OK ∨ st = c.OTCRYPTO_BAD_ARGS)) ∧
    (∃ st, keyblob_ensure_xor_masked c config = .ok st ∧
      (st = c.OTCRYPTO_OK ∨ st = c.OTCRYPTO_BAD_ARGS)) ∧
    (keyblob_to_keymgr_diversification c key div ≠ .error .trap ∧
      keyblob_to_keymgr_diversification c key div ≠ .error .div_by_zero ∧
      keyblob_to_keymgr_diversification c key div ≠ .error .out_of_fuel ∧
      ∀ st d, keyblob_to_keymgr_diversification c key div = .ok (st, d) →
        st = c.OTCRYPTO_OK ∨ st = c.OTCRYPTO_BAD_ARGS) ∧
    (keyblob_from_key_and_mask c rawKey mask config out ≠ .error .trap ∧
      keyblob_from_key_and_mask c rawKey mask config out ≠ .error .div_by_zero ∧
      keyblob_from_key_and_mask c rawKey mask config out ≠ .error .out_of_fuel ∧
      ∀ st o, keyblob_from_key_and_mask c rawKey mask config out = .ok (st, o) →
        st = c.OTCRYPTO_OK ∨ st = c.OTCRYPTO_BAD_ARGS) ∧
    (keyblob_remask c key newMask ≠ .error .trap ∧
      keyblob_remask c key newMask ≠ .error .div_by_zero ∧
      keyblob_remask c key newMask ≠ .error .out_of_fuel ∧
      ∀ st k, keyblob_remask c key newMask = .ok (st, k) →
        st = c.OTCRYPTO_OK ∨ st = c.OTCRYPTO_BAD_ARGS) ∧
    (∀ blob n, key.keyblob = some blob → keyblob_num_words c key.config = .ok n →
      n ≤ blob.length → div.salt.length = c.kKeymgrSaltNumWords →
      ∃ st d, keyblob_to_keymgr_diversification c key div = .ok (st, d) ∧
        (st = c.OTCRYPTO_OK ∨ st = c.OTCRYPTO_BAD_ARGS)) ∧
    (key.keyblob = none →
      keyblob_to_keymgr_diversification c key div = .ok (c.OTCRYPTO_BAD_ARGS, div)) ∧
    (∀ s, keyblob_share_num_words c config = .ok s → s ≤ rawKey.length → s ≤ mask.length →
      2 * s ≤ out.length →
      ∃ st o, keyblob_from_key_and_mask c rawKey mask config out = .ok (st, o) ∧
        (st = c.OTCRYPTO_OK ∨ st = c.OTCRYPTO_BAD_ARGS)) ∧
    (∀ blob n s, key.keyblob = some blob → keyblob_num_words c key.config = .ok n →
      n ≤ blob.length → keyblob_share_num_words c key.config = .ok s →
      s ≤ newMask.length →
      ∃ st k, keyblob_remask c key newMask = .ok (st, k) ∧
        (st = c.OTCRYPTO_OK ∨ st = c.OTCRYPTO_BAD_ARGS)) ∧
    (key.config.hw_backed = c.kHardenedBoolFalse →
      key.config.key_mode >>> 16 ∈ symmetricTags c → key.config.key_length = 0 →
      key.keyblob_length = 0 →
      keyblob_remask c key newMask =
        .ok (c.OTCRYPTO_OK, { key with checksum := c.integrity_blinded_checksum key })) := by
  refine ⟨⟨_, keyblob_share_num_words_eq c config⟩, ⟨_, keyblob_num_words_eq c config⟩,
    keyblob_to_shares_no_abort c hc key, ?_,
    no_abort_spec c _ (keyblob_to_keymgr_diversification_no_abort c hc key div),
    no_abort_spec c _ (keyblob_from_key_and_mask_no_abort c hc rawKey mask config out),
    no_abort_spec c _ (keyblob_remask_no_abort c hc key newMask), ?_, ?_, ?_, ?_, ?_⟩
  · rw [keyblob_ensure_xor_masked_eq c hc]
    split
    · exact ⟨_, rfl, Or.inl rfl⟩
    · exact ⟨_, rfl, Or.inr rfl⟩
  · intro blob n hb hn hsz hs
    rw [keyblob_num_words_eq] at hn
    injection hn with hn
    exact keyblob_to_keymgr_diversification_returns c hc key div blob hb (by omega)
      (by omega)
  · intro hnone
    unfold keyblob_to_keymgr_diversification
    rw [if_pos (Or.inr hnone)]
    rfl
  · intro s hs hk hm ho
    rw [keyblob_share_num_words_eq] at hs
    injection hs with hs
    exact keyblob_from_key_and_mask_returns c hc rawKey mask config out (by omega)
      (by omega) (by omega)
  · intro blob n s hb hn hsz hs hm
    rw [keyblob_num_words_eq] at hn
    rw [keyblob_share_num_words_eq] at hs
    injection hn with hn
    injection hs with hs
    exact keyblob_remask_returns c hc key blob newMask hb (by omega) (by omega)
  · intro hhw htag hkl hlen
    have hs := shareWords_zero c hc key.config htag hkl
    have hne : key.config.hw_backed ≠ c.kHardenedBoolTrue := by
      rw [hhw]; exact Ne.symm hc.1
    have hn : numWords c key.config = 0 := by
      unfold numWords
      rw [if_neg hne, hs]
      rfl
    rw [keyblob_remask_eq c hc, if_pos ⟨hhw, htag⟩, hn, if_pos (by rw [hlen]; rfl), hs]
    simp [keyblob_remask_loop]

/-- Witness of C19. On `demoKey` both loops run over every word: re-masking with
`[1,1,1,1]` visits the eight words of the blob and building the blob from `[1,2,3,4]` and
`[5,6,7,8]` visits the four words of the share; on `hwKey` the diversification is
extracted; on `emptyKey`, whose keyblob is NULL, the loop body is never reached. -/
theorem keyblob_no_fatal_abort_witness :
    demoEnv.WF ∧
    keyblob_remask demoEnv demoKey [1, 1, 1, 1]
      = .ok (demoEnv.OTCRYPTO_OK, demoKeyRemasked) ∧
    keyblob_from_key_and_mask demoEnv [1, 2, 3, 4] [5, 6, 7, 8] aes128
      [0, 0, 0, 0, 0, 0, 0, 0] = .ok (demoEnv.OTCRYPTO_OK, [4, 4, 4, 12, 5, 6, 7, 8]) ∧
    (∃ st k, keyblob_remask demoEnv demoKey [1, 1, 1, 1] = .ok (st, k) ∧
      (st = demoEnv.OTCRYPTO_OK ∨ st = demoEnv.OTCRYPTO_BAD_ARGS)) ∧
    (∃ st o, keyblob_from_key_and_mask demoEnv [1, 2, 3, 4] [5, 6, 7, 8] aes128
        [0, 0, 0, 0, 0, 0, 0, 0] = .ok (st, o) ∧
      (st = demoEnv.OTCRYPTO_OK ∨ st = demoEnv.OTCRYPTO_BAD_ARGS)) ∧
    (∃ st d, keyblob_to_keymgr_diversification demoEnv hwKey ⟨0, [0, 0, 0, 0, 0, 0, 0, 0]⟩
        = .ok (st, d) ∧
      (st = demoEnv.OTCRYPTO_OK ∨ st = demoEnv.OTCRYPTO_BAD_ARGS)) ∧
    keyblob_to_keymgr_diversification demoEnv emptyKey ⟨0, [0, 0, 0, 0, 0, 0, 0, 0]⟩
      = .ok (demoEnv.OTCRYPTO_BAD_ARGS, ⟨0, [0, 0, 0, 0, 0, 0, 0, 0]⟩) ∧
    keyblob_remask demoEnv emptyKey [] =
      .ok (demoEnv.OTCRYPTO_OK,
        { emptyKey with checksum := demoEnv.integrity_blinded_checksum emptyKey }) ∧
    keyblob_remask demoEnv { demoKey with keyblob := none } [1, 1, 1, 1] ≠ .error .trap ∧
    keyblob_remask demoEnv { demoKey with keyblob := none } [1, 1, 1, 1]
      ≠ .error .div_by_zero :=
  have hDemo := keyblob_no_fatal_abort demoEnv (by decide) aes128 demoKey
    ⟨0, [0, 0, 0, 0, 0, 0, 0, 0]⟩ [1, 2, 3, 4] [5, 6, 7, 8] [0, 0, 0, 0, 0, 0, 0, 0]
    [1, 1, 1, 1]
  have hHw := keyblob_no_fatal_abort demoEnv (by decide) aes128 hwKey
    ⟨0, [0, 0, 0, 0, 0, 0, 0, 0]⟩ [1, 2, 3, 4] [5, 6, 7, 8] [0, 0, 0, 0, 0, 0, 0, 0]
    [1, 1, 1, 1]
  have hEmpty := keyblob_no_fatal_abort demoEnv (by decide) aes128 emptyKey
    ⟨0, [0, 0, 0, 0, 0, 0, 0, 0]⟩ [1, 2, 3, 4] [5, 6, 7, 8] [0, 0, 0, 0, 0, 0, 0, 0] []
  have hNull := keyblob_no_fatal_abort demoEnv (by decide) aes128
    { demoKey with keyblob := none } ⟨0, [0, 0, 0, 0, 0, 0, 0, 0]⟩ [1, 2, 3, 4]
    [5, 6, 7, 8] [0, 0, 0, 0, 0, 0, 0, 0] [1, 1, 1, 1]
  ⟨by decide, by decide, by decide,
    hDemo.2.2.2.2.2.2.2.2.2.2.1 [4, 4, 4, 12, 5, 6, 7, 8] 8 4 rfl (by decide) (by decide)
      (by decide) (by decide),
    hDemo.2.2.2.2.2.2.2.2.2.1 4 (by decide) (by decide) (by decide) (by decide),
    hHw.2.2.2.2.2.2.2.1 [10, 11, 12, 13, 14, 15, 16, 17] 8 rfl (by decide) (by decide)
      (by decide),
    hEmpty.2.2.2.2.2.2.2.2.1 rfl,
    hEmpty.2.2.2.2.2.2.2.2.2.2.2 (by decide) (by decide) (by decide) (by decide),
    hNull.2.2.2.2.2.2.1.1, hNull.2.2.2.2.2.2.1.2.1⟩

/-! ## Room for the key in 32-bit arithmetic -/

/-- C20, counterexample. For the AES configuration `hugeAes` (`key_length = 2 ^ 31`, not
hardware-backed) the share has `2 ^ 29` words and the blob `2 ^ 30`, the product
`4 * 2 ^ 30` wraps to 0 instead of `8 * 2 ^ 29`, and `check_keyblob_length` accepts
`keyblob_length = 0`, which is smaller than twice the key length; for the ECC configuration
`hugeEcc` (`key_length = 2 ^ 32 - 8`) the sum `key_length + 8` wraps to 0, the share has
no word, and `4 * 0` is smaller than the key length. -/
theorem keyblob_share_room_counterexample :
    (hugeAes.hw_backed ≠ demoEnv.kHardenedBoolTrue ∧ hugeAes.key_length < 2 ^ 32 ∧
      keyblob_share_num_words demoEnv hugeAes = .ok (2 ^ 29) ∧
      keyblob_num_words demoEnv hugeAes = .ok (2 ^ 30) ∧
      (4 * 2 ^ 30) % 2 ^ 32 ≠ 8 * 2 ^ 29 ∧
      check_keyblob_length demoEnv
        { config := hugeAes, keyblob_length := 0, keyblob := some [], checksum := 0 }
        = .ok demoEnv.OTCRYPTO_OK ∧
      ¬ (2 * hugeAes.key_length ≤ 0)) ∧
    (hugeEcc.hw_backed ≠ demoEnv.kHardenedBoolTrue ∧ hugeEcc.key_length < 2 ^ 32 ∧
      keyblob_share_num_words demoEnv hugeEcc = .ok 0 ∧
      ¬ (hugeEcc.key_length ≤ (4 * 0) % 2 ^ 32)) := by
  decide

/-- C20, amended. A share has room for the key in 32-bit `size_t` arithmetic whenever the
share byte count (`key_length`, plus 8 for ECC) is at most `2 ^ 31 - 4`: for such a
configuration that is not hardware-backed, with sums and products taken modulo `2 ^ 32`,
`4 * keyblob_share_num_words(config)` is at least `key_length` (at least `key_length + 8`
for ECC), `4 * keyblob_num_words(config)` equals `8 * keyblob_share_num_words(config)`
without wrap-around, and a byte length accepted by `check_keyblob_length` is at least
twice the key length. -/
theorem keyblob_share_room (c : Env) (hc : c.WF) (config : crypto_key_config_t)
    (hhw : config.hw_backed ≠ c.kHardenedBoolTrue)
    (hB : (if config.key_mode >>> 16 = c.kKeyTypeEcc then config.key_length + 8
      else config.key_length) ≤ 2 ^ 31 - 4) :
    ∃ s n, keyblob_share_num_words c config = .ok s ∧ keyblob_num_words c config = .ok n ∧
      config.key_length ≤ (4 * s) % 2 ^ 32 ∧
      (config.key_mode >>> 16 = c.kKeyTypeEcc →
        (config.key_length + 8) % 2 ^ 32 = config.key_length + 8 ∧
        config.key_length + 8 ≤ (4 * s) % 2 ^ 32) ∧
      (4 * n) % 2 ^ 32 = 8 * s ∧ 8 * s < 2 ^ 32 ∧
      ∀ key : crypto_blinded_key_t, key.config = config →
        check_keyblob_length c key = .ok c.OTCRYPTO_OK →
        2 * config.key_length ≤ key.keyblob_length := by
  have hne : c.OTCRYPTO_BAD_ARGS ≠ c.OTCRYPTO_OK := hc.2.2.2.1
  have hsb : shareBytes c config ≤ 2 ^ 31 - 4 ∧ config.key_length ≤ shareBytes c config ∧
      (config.key_mode >>> 16 = c.kKeyTypeEcc →
        shareBytes c config = config.key_length + 8) := by
    unfold shareBytes
    by_cases ht : config.key_mode >>> 16 = c.kKeyTypeEcc
    · rw [if_pos ht] at hB ⊢
      rw [Nat.mod_eq_of_lt (by omega)]
      exact ⟨hB, by omega, fun _ => rfl⟩
    · rw [if_neg ht] at hB ⊢
      exact ⟨hB, le_refl _, fun h => absurd h ht⟩
  obtain ⟨hb1, hb2, hb3⟩ := hsb
  have hcd : shareBytes c config ≤ 4 * shareWords c config ∧
      8 * shareWords c config < 2 ^ 32 := by
    unfold shareWords ceil_div
    omega
  obtain ⟨hs1, hs2⟩ := hcd
  have hn : numWords c config = 2 * shareWords c config := by
    unfold numWords
    rw [if_neg hhw]
    omega
  refine ⟨shareWords c config, numWords c config, keyblob_share_num_words_eq c config,
    keyblob_num_words_eq c config, by omega, ?_, by omega, hs2, ?_⟩
  · intro ht
    have := hb3 ht
    exact ⟨by omega, by omega⟩
  · intro key hk hchk
    rw [check_keyblob_length_eq, hk] at hchk
    injection hchk with hchk
    by_cases hl : key.keyblob_length = (numWords c config * 4) % 2 ^ 32
    · omega
    · rw [if_neg hl] at hchk
      exact absurd hchk hne

/-- Witness of the amended C20 on the P-256 configuration. -/
theorem keyblob_share_room_witness :
    demoEnv.WF ∧ ecc256.hw_backed ≠ demoEnv.kHardenedBoolTrue ∧
    ∃ s n, keyblob_share_num_words demoEnv ecc256 = .ok s ∧
      keyblob_num_words demoEnv ecc256 = .ok n ∧
      ecc256.key_length ≤ (4 * s) % 2 ^ 32 ∧
      (ecc256.key_mode >>> 16 = demoEnv.kKeyTypeEcc →
        (ecc256.key_length + 8) % 2 ^ 32 = ecc256.key_length + 8 ∧
        ecc256.key_length + 8 ≤ (4 * s) % 2 ^ 32) ∧
      (4 * n) % 2 ^ 32 = 8 * s ∧ 8 * s < 2 ^ 32 ∧
      ∀ key : crypto_blinded_key_t, key.config = ecc256 →
        check_keyblob_length demoEnv key = .ok demoEnv.OTCRYPTO_OK →
        2 * ecc256.key_length ≤ key.keyblob_length :=
  ⟨by decide, by decide, keyblob_share_room demoEnv (by decide) ecc256 (by decide) (by decide)⟩

end Keyblob
